import Mathlib

/-!
# Verification of the K-fold cross-validation notebook

Shallow embedding of `src/notebooks/chapter1/cross_validation.ipynb`
(the `evaluate` sweep of the spec's `CrossValidatedPolynomialFit`) over ℚ,
together with proofs of the claims about it.

The notebook's cell-3 is, for `N = len(x)`:

```
sizes = np.tile(np.int(N/float(10)),(1,K))
sizes[0,-1] = sizes[0,-1] + N - sizes.sum()
c_sizes = np.hstack((0,np.cumsum(sizes)))
X = np.ones_like(x); X_test = np.ones_like(x_test)
for k in range(max_order+1):
    for fold in range(K):
        X_fold  = X[c_sizes[fold]:c_sizes[fold+1],:]
        X_train = np.delete(X,np.arange(c_sizes[fold],c_sizes[fold+1],1),0)
        t_fold  = t[c_sizes[fold]:c_sizes[fold+1]]
        t_train = np.delete(t,np.arange(c_sizes[fold],c_sizes[fold+1],1),0)
        w = np.linalg.solve(np.dot(X_train.T,X_train),np.dot(X_train.T,t_train))
        cv_loss[fold,k]    = ((np.dot(X_fold,w) - t_fold)**2).mean()
        ind_loss[fold,k]   = ((np.dot(X_test,w) - t_test)**2).mean()
        train_loss[fold,k] = ((np.dot(X_train,w) - t_train)**2).mean()
    X = np.hstack((X,x**(k+1)))
    X_test = np.hstack((X_test,x_test**(k+1)))
```

Embedding conventions:
* real numbers become ℚ (exact arithmetic; `np.linalg.solve` is modelled as
  the exact solution of the linear system, failing exactly on a singular
  matrix, which is `LinAlgError` in numpy);
* a numpy column vector becomes `List ℚ`, a 2-d array a `List (List ℚ)`
  (list of rows);
* python exceptions become `Except Err`: `Err.indexError` is the
  `IndexError` raised by `sizes[0,-1]` when `K = 0`, `Err.shapeMismatch`
  the `ValueError` of a misaligned `np.dot`, `Err.broadcastMismatch` the
  `ValueError` of a non-broadcastable elementwise subtraction, and
  `Err.singularMatrix` numpy's `LinAlgError`.  `Err.invalidFoldCount` is
  the spec's `InvalidFoldCount`; it exists so that claims about it can be
  stated — the notebook has no fold-count validation and never raises it;
* `((a)**2).mean()` over an empty array is NaN in numpy (a RuntimeWarning,
  not an exception); over ℚ the embedding yields `0/0 = 0`.  Theorems
  below therefore restrict loss values to nonempty arrays wherever their
  truth would otherwise lean on the collapsed value; the one place an
  empty mean is exercised on purpose — the C9 counterexample's empty
  fold — records `meanSq [] = 0` where the program records NaN, and its
  statement says so;
* python slice bounds in the notebook are the nonnegative `c_sizes`
  entries exercised by the theorems below, so slicing and `np.delete` are
  embedded with clamped ℕ bounds (`Int.toNat` of the `c_sizes` entry).
-/

open scoped Matrix

inductive Err where
  | indexError
  | shapeMismatch
  | broadcastMismatch
  | singularMatrix
  | invalidFoldCount
  deriving DecidableEq, Repr

instance {e a : Type} [DecidableEq e] [DecidableEq a] : DecidableEq (Except e a) := fun x y =>
  match x, y with
  | .ok v, .ok w => decidable_of_iff (v = w) (by simp)
  | .error v, .error w => decidable_of_iff (v = w) (by simp)
  | .ok _, .error _ => isFalse (by simp)
  | .error _, .ok _ => isFalse (by simp)

/-- Python slice `l[a:b]` for nonnegative bounds (out-of-range bounds clamp). -/
def sliceL {α : Type} (a b : ℕ) (l : List α) : List α := (l.take b).drop a

/-- `np.delete(l, np.arange(a,b,1), 0)` for nonnegative bounds: removes the
rows with index in `[a, b)`; an empty `arange` (when `b ≤ a`) removes
nothing, and indices beyond the length are ignored. -/
def deleteRangeL {α : Type} (a b : ℕ) (l : List α) : List α :=
  if b ≤ a then l else l.take a ++ l.drop b

/-- Dot product of two equally long lists. -/
def dotL (r w : List ℚ) : ℚ := (List.zipWith (· * ·) r w).sum

/-- `np.dot(A, w)` for a matrix `A` (rows of length `w.length`) and a column
vector `w`. -/
def matVecL (A : List (List ℚ)) (w : List ℚ) : List ℚ := A.map fun r => dotL r w

/-- `np.dot(X.T, X)` for `X` with `n` columns: entry `(i,j)` is
`Σ_rows X[r,i]·X[r,j]`.  With no rows this is the `n × n` zero matrix,
exactly as in numpy. -/
def gramL (n : ℕ) (A : List (List ℚ)) : List (List ℚ) :=
  (List.range n).map fun i =>
    (List.range n).map fun j => (A.map fun r => r.getD i 0 * r.getD j 0).sum

/-- `np.dot(X.T, t)` for `X` with `n` columns: entry `i` is `Σ_rows X[r,i]·t[r]`. -/
def rhsL (n : ℕ) (A : List (List ℚ)) (t : List ℚ) : List ℚ :=
  (List.range n).map fun i => ((A.zip t).map fun p => p.1.getD i 0 * p.2).sum

/-- Delete entry `j` of every row. -/
def minorL (rs : List (List ℚ)) (j : ℕ) : List (List ℚ) := rs.map fun row => row.eraseIdx j

/-- Laplace expansion along the first row, with a structural fuel argument
(the row count) so that the kernel can evaluate it. -/
def detN : ℕ → List (List ℚ) → ℚ
  | _, [] => 1
  | 0, _ :: _ => 0
  | n + 1, r :: rs =>
      ((List.range r.length).map fun j => (-1 : ℚ) ^ j * r.getD j 0 * detN n (minorL rs j)).sum

/-- Determinant of a square matrix given as a list of rows (proved equal to
`Matrix.det` below). -/
def detL (A : List (List ℚ)) : ℚ := detN A.length A

/-- Replace column `j` of `A` by `b`. -/
def replaceCol (A : List (List ℚ)) (j : ℕ) (b : List ℚ) : List (List ℚ) :=
  List.zipWith (fun row bi => row.set j bi) A b

/-- `np.linalg.solve A b`: the exact solution of `A·w = b` (by Cramer's
rule), `none` — numpy's `LinAlgError` — exactly when `A` is singular. -/
def linSolve (A : List (List ℚ)) (b : List ℚ) : Option (List ℚ) :=
  if detL A = 0 then none
  else some ((List.range A.length).map fun j => detL (replaceCol A j b) / detL A)

/-- numpy broadcasting of `a - b` for two column vectors: defined when the
lengths agree or either length is 1. -/
def bsub (a b : List ℚ) : Option (List ℚ) :=
  if a.length = b.length then some (List.zipWith (· - ·) a b)
  else if b.length = 1 then some (a.map (· - b.getD 0 0))
  else if a.length = 1 then some (b.map (a.getD 0 0 - ·))
  else none

/-- `arr.mean()` of the squares, `((d)**2).mean()`.  For empty `d` this is
`0/0 = 0` over ℚ, whereas numpy's mean of an empty array is NaN (with a
RuntimeWarning, not an exception); theorems about recorded losses carry
nonemptiness guards wherever that divergence could matter. -/
def meanSq (d : List ℚ) : ℚ := ((d.map fun v => v ^ 2).sum) / d.length

/-- `((a - b)**2).mean()` with numpy broadcasting of the subtraction. -/
def bmse (a b : List ℚ) : Except Err ℚ :=
  match bsub a b with
  | none => .error .broadcastMismatch
  | some d => .ok (meanSq d)

/-- The design matrix as the notebook builds it: `X = np.ones_like(x)`
initially, and after iteration `k` the column `x**(k+1)` is appended
(`np.hstack`).  `buildX x k` is the matrix the body of iteration `k` uses. -/
def buildX (v : List ℚ) : ℕ → List (List ℚ)
  | 0 => v.map fun _ => [1]
  | k + 1 => List.zipWith (fun row e => row ++ [e]) (buildX v k) (v.map (· ^ (k + 1)))

/-- `sizes = np.tile(np.int(N/float(10)),(1,K)); sizes[0,-1] += N - sizes.sum()`:
`K` copies of `⌊N/10⌋` (note: the divisor is the literal 10, not `K`), the
last entry then absorbing `N - K·⌊N/10⌋` (possibly negative, hence ℤ).
Only meaningful for `K ≥ 1`; `evaluate` maps `K = 0` to the `IndexError`
that `sizes[0,-1]` raises on an empty tile. -/
def sizes (N K : ℕ) : List ℤ :=
  List.replicate (K - 1) ((N / 10 : ℕ) : ℤ) ++
    [((N / 10 : ℕ) : ℤ) + (N : ℤ) - (K : ℤ) * ((N / 10 : ℕ) : ℤ)]

/-- `c_sizes = np.hstack((0, np.cumsum(sizes)))`. -/
def c_sizes (N K : ℕ) : List ℤ := List.scanl (· + ·) 0 (sizes N K)

/-- The body of the inner loop for one `(order, fold)` cell: slice out the
fold, delete it from the training data, solve the normal equations, and
return the three mean squared losses `(cv, ind, train)` in the order the
notebook computes them.  `n = k+1` is the column count of `X`. -/
def cell (n : ℕ) (X : List (List ℚ)) (t : List ℚ) (X_test : List (List ℚ))
    (t_test : List ℚ) (a b : ℕ) : Except Err (ℚ × ℚ × ℚ) :=
  let X_fold := sliceL a b X
  let X_train := deleteRangeL a b X
  let t_fold := sliceL a b t
  let t_train := deleteRangeL a b t
  if X_train.length ≠ t_train.length then .error .shapeMismatch
  else
    match linSolve (gramL n X_train) (rhsL n X_train t_train) with
    | none => .error .singularMatrix
    | some w => do
        let cv ← bmse (matVecL X_fold w) t_fold
        let ind ← bmse (matVecL X_test w) t_test
        let tr ← bmse (matVecL X_train w) t_train
        pure (cv, ind, tr)

/-- `c_sizes[fold]`, clamped to ℕ for slicing (nonnegative in every regime a
theorem below exercises). -/
def foldStart (x : List ℚ) (K fold : ℕ) : ℕ := ((c_sizes x.length K).getD fold 0).toNat

/-- `c_sizes[fold+1]`, clamped to ℕ for slicing. -/
def foldStop (x : List ℚ) (K fold : ℕ) : ℕ :=
  ((c_sizes x.length K).getD (fold + 1) 0).toNat

/-- The notebook's `X_train` at order `k`, fold `fold`. -/
def X_trainAt (x : List ℚ) (K k fold : ℕ) : List (List ℚ) :=
  deleteRangeL (foldStart x K fold) (foldStop x K fold) (buildX x k)

/-- The notebook's `X_fold` at order `k`, fold `fold`. -/
def X_foldAt (x : List ℚ) (K k fold : ℕ) : List (List ℚ) :=
  sliceL (foldStart x K fold) (foldStop x K fold) (buildX x k)

/-- The notebook's `t_train` at fold `fold`. -/
def t_trainAt (x t : List ℚ) (K fold : ℕ) : List ℚ :=
  deleteRangeL (foldStart x K fold) (foldStop x K fold) t

/-- The notebook's `t_fold` at fold `fold`. -/
def t_foldAt (x t : List ℚ) (K fold : ℕ) : List ℚ :=
  sliceL (foldStart x K fold) (foldStop x K fold) t

/-- The inner-loop body at order `k` and fold index `fold`, with the design
matrices the notebook has at iteration `k` and the slice bounds taken from
`c_sizes`. -/
def cellAt (x t x_test t_test : List ℚ) (K k fold : ℕ) : Except Err (ℚ × ℚ × ℚ) :=
  cell (k + 1) (buildX x k) t (buildX x_test k) t_test
    (foldStart x K fold) (foldStop x K fold)

/-- Run `f` over a list of loop indices, stopping at the first python
exception (so errors surface in the notebook's iteration order). -/
def sweepM {α : Type} (f : ℕ → Except Err α) : List ℕ → Except Err (List α)
  | [] => .ok []
  | i :: is => do
      let y ← f i
      let ys ← sweepM f is
      pure (y :: ys)

/-- Rearrange the order-major list of cell results into one `K × (max_order+1)`
loss table (`fold`-major, as the notebook's `cv_loss` etc. arrays are laid
out), selecting one of the three losses with `g`. -/
def tableOf (K mo : ℕ) (g : ℚ × ℚ × ℚ → ℚ) (kls : List (List (ℚ × ℚ × ℚ))) :
    List (List ℚ) :=
  (List.range K).map fun f => (List.range (mo + 1)).map fun k =>
    g ((kls.getD k []).getD f (0, 0, 0))

/-- The whole sweep of the notebook's cell-3, as the spec's
`evaluate(x_train, t_train, x_test, t_test, max_order, K)`: returns the
three loss tables `(cv_loss, ind_loss, train_loss)` or the first python
exception. -/
def evaluate (x t x_test t_test : List ℚ) (max_order K : ℕ) :
    Except Err (List (List ℚ) × List (List ℚ) × List (List ℚ)) :=
  if K = 0 then .error .indexError
  else
    match sweepM (fun k =>
        sweepM (fun fold => cellAt x t x_test t_test K k fold) (List.range K))
        (List.range (max_order + 1)) with
    | .error e => .error e
    | .ok kls =>
        .ok (tableOf K max_order (fun p => p.1) kls,
             tableOf K max_order (fun p => p.2.1) kls,
             tableOf K max_order (fun p => p.2.2) kls)

/-! ## Spec-side definitions

These follow the spec's words, for the refinement / correctness claims that
compare the code against them. -/

/-- Modelled from the spec: "the matrix of monomial features
`[1, x, x^2, ..., x^k]`" built from scratch at order `k`. -/
def vanderL (v : List ℚ) (k : ℕ) : List (List ℚ) :=
  v.map fun xi => (List.range (k + 1)).map fun j => xi ^ j

/-- Modelled from the spec: "mean squared error = arithmetic mean over all
row-wise squared differences". -/
def mseSpec (pred target : List ℚ) : ℚ :=
  ((List.zipWith (· - ·) pred target).map fun v => v ^ 2).sum / pred.length

/-- Modelled from the spec: the fold-size balancing rule "each fold differs
from `⌊N/K⌋` by at most the rounding remainder, and only the last fold
absorbs the remainder": `K-1` folds of `⌊N/K⌋` and a last fold of
`⌊N/K⌋ + N mod K`. -/
def ruleSizes (N K : ℕ) : List ℤ :=
  List.replicate (K - 1) ((N / K : ℕ) : ℤ) ++ [((N / K : ℕ) : ℤ) + ((N % K : ℕ) : ℤ)]

/-- Evaluation of the polynomial with coefficient list `c` (constant term
first) at `xi`, for stating the noiseless-data hypothesis. -/
def polyEval (c : List ℚ) (xi : ℚ) : ℚ := c.foldr (fun a acc => a + xi * acc) 0

/-! ## Views of the list-level data as Mathlib matrices -/

/-- The list-of-rows matrix `A` as a `Matrix (Fin m) (Fin n) ℚ`
(out-of-range entries default to 0). -/
def toMat (m n : ℕ) (A : List (List ℚ)) : Matrix (Fin m) (Fin n) ℚ :=
  Matrix.of fun i j => (A.getD i.val []).getD j.val 0

/-- A list as a `Fin m`-indexed vector. -/
def vecOf (m : ℕ) (l : List ℚ) : Fin m → ℚ := fun i => l.getD i.val 0

/-- The `m × n` Vandermonde matrix of the x-values `xs`. -/
def vmat (m n : ℕ) (xs : List ℚ) : Matrix (Fin m) (Fin n) ℚ :=
  Matrix.of fun i j => (xs.getD i.val 0) ^ j.val

/-! ## Generic helper lemmas -/

theorem sum_map_range (n : ℕ) (f : ℕ → ℚ) :
    ((List.range n).map f).sum = ∑ j : Fin n, f j.val := by
  induction n with
  | zero => simp
  | succ m ih =>
      rw [List.range_succ, List.map_append, List.sum_append, Fin.sum_univ_castSucc]
      simp [ih]

theorem sum_map_fin (A : List (List ℚ)) (f : List ℚ → ℚ) :
    (A.map f).sum = ∑ r : Fin A.length, f (A.get r) := by
  induction A with
  | nil => simp
  | cons a as ih =>
      rw [List.map_cons, List.sum_cons, ih]
      show f a + ∑ r : Fin as.length, f (as.get r) =
        ∑ r : Fin (as.length + 1), f ((a :: as).get r)
      rw [Fin.sum_univ_succ]
      rfl

theorem getD_map_range (n : ℕ) (f : ℕ → ℚ) {i : ℕ} (hi : i < n) :
    (((List.range n).map f).getD i 0) = f i := by
  rw [List.getD_eq_getElem _ _ (by simpa using hi)]
  simp

theorem getD_map_range_list (n : ℕ) (f : ℕ → List ℚ) {i : ℕ} (hi : i < n) :
    (((List.range n).map f).getD i []) = f i := by
  rw [List.getD_eq_getElem _ _ (by simpa using hi)]
  simp

theorem eraseIdx_getD (row : List ℚ) (j l : ℕ) :
    (row.eraseIdx j).getD l 0 = row.getD (if l < j then l else l + 1) 0 := by
  induction row generalizing j l with
  | nil => simp [List.eraseIdx]
  | cons a as ih =>
      cases j with
      | zero => simp
      | succ j' =>
          cases l with
          | zero => simp
          | succ l' =>
              rw [List.eraseIdx_cons_succ, List.getD_cons_succ, ih j' l']
              by_cases h : l' < j'
              · rw [if_pos h, if_pos (Nat.succ_lt_succ h), List.getD_cons_succ]
              · rw [if_neg h, if_neg (fun hc => h (Nat.lt_of_succ_lt_succ hc)),
                  List.getD_cons_succ]

theorem succAbove_val {n : ℕ} (j : Fin (n + 1)) (l : Fin n) :
    (j.succAbove l).val = if l.val < j.val then l.val else l.val + 1 := by
  simp only [Fin.succAbove]
  by_cases h : l.castSucc < j
  · have h' : l.val < j.val := by simpa [Fin.lt_def] using h
    rw [if_pos h, if_pos h']
    simp
  · have h' : ¬ l.val < j.val := by simpa [Fin.lt_def] using h
    rw [if_neg h, if_neg h']
    simp

/-! ## The list determinant agrees with Mathlib's -/

theorem minorL_submatrix {n : ℕ} (r : List ℚ) (rs : List (List ℚ))
    (hrs : rs.length = n) (j : Fin (n + 1)) :
    toMat n n (minorL rs j.val) =
      (toMat (n + 1) (n + 1) (r :: rs)).submatrix Fin.succ j.succAbove := by
  ext i l
  have hi : i.val < rs.length := hrs ▸ i.isLt
  have him : i.val < (minorL rs j.val).length := by simpa [minorL] using hi
  have h1 : (minorL rs j.val).getD i.val [] = rs[i.val].eraseIdx j.val := by
    rw [List.getD_eq_getElem _ _ him]
    simp [minorL]
  have h2 : (r :: rs).getD (i.val + 1) [] = rs[i.val] := by
    rw [List.getD_cons_succ, List.getD_eq_getElem _ _ hi]
  simp only [toMat, Matrix.submatrix_apply, Matrix.of_apply, Fin.val_succ, h1, h2,
    eraseIdx_getD, succAbove_val]

theorem detN_eq_det (n : ℕ) (A : List (List ℚ)) (hA : A.length = n)
    (hrow : ∀ r ∈ A, r.length = n) : detN n A = (toMat n n A).det := by
  induction n generalizing A with
  | zero =>
      have : A = [] := List.length_eq_zero.mp hA
      subst this
      simp [detN, Matrix.det_fin_zero]
  | succ m ih =>
      match A, hA with
      | r :: rs, hA =>
          have hr : r.length = m + 1 := hrow r (by simp)
          have hrs : rs.length = m := by simpa using hA
          have hrows : ∀ s ∈ rs, s.length = m + 1 := fun s hs => hrow s (by simp [hs])
          simp only [detN]
          rw [Matrix.det_succ_row_zero, hr, sum_map_range]
          refine Finset.sum_congr rfl fun j _ => ?_
          have h1 : detN m (minorL rs j.val) =
              (toMat m m (minorL rs j.val)).det := by
            refine ih (minorL rs j.val) (by simp [minorL, hrs]) ?_
            intro s hs
            rcases List.mem_map.mp hs with ⟨row, hrowmem, rfl⟩
            rw [List.length_eraseIdx]
            simp [hrows row hrowmem, j.isLt]
          rw [h1, minorL_submatrix r rs hrs j]
          have h2 : (toMat (m + 1) (m + 1) (r :: rs)) 0 j = r.getD j.val 0 := by
            simp [toMat]
          rw [h2]

theorem detL_eq_det (n : ℕ) (A : List (List ℚ)) (hA : A.length = n)
    (hrow : ∀ r ∈ A, r.length = n) : detL A = (toMat n n A).det := by
  rw [detL, hA, detN_eq_det n A hA hrow]

/-! ## Soundness of `linSolve` (Cramer's rule) -/

theorem replaceCol_rows_length (n : ℕ) (A : List (List ℚ)) (b : List ℚ)
    (hrow : ∀ r ∈ A, r.length = n) :
    ∀ s ∈ replaceCol A j b, s.length = n := by
  intro s hs
  rcases List.mem_iff_getElem.mp hs with ⟨i, hilen, heq⟩
  simp only [replaceCol] at hilen heq
  rw [List.getElem_zipWith] at heq
  have hiA : i < A.length :=
    lt_of_lt_of_le hilen (by rw [List.length_zipWith]; exact min_le_left _ _)
  rw [← heq, List.length_set]
  exact hrow _ (List.getElem_mem hiA)

theorem toMat_replaceCol (n : ℕ) (A : List (List ℚ)) (b : List ℚ)
    (hA : A.length = n) (hrow : ∀ r ∈ A, r.length = n) (hb : b.length = n) (j : Fin n) :
    toMat n n (replaceCol A j.val b) = (toMat n n A).updateColumn j (vecOf n b) := by
  ext i l
  have hi : i.val < A.length := hA ▸ i.isLt
  have hib : i.val < b.length := hb ▸ i.isLt
  have hiz : i.val < (replaceCol A j.val b).length := by
    simp [replaceCol, List.length_zipWith, hA, hb, i.isLt]
  have hset : (replaceCol A j.val b).getD i.val [] = A[i.val].set j.val b[i.val] := by
    rw [List.getD_eq_getElem _ _ hiz]
    simp only [replaceCol]
    rw [List.getElem_zipWith]
  have hrl : l.val < (A[i.val].set j.val b[i.val]).length := by
    rw [List.length_set, hrow _ (List.getElem_mem hi)]
    exact l.isLt
  simp only [toMat, Matrix.of_apply, Matrix.updateColumn_apply, vecOf]
  rw [hset, List.getD_eq_getElem _ _ hrl, List.getElem_set]
  by_cases h : l = j
  · rw [if_pos (congrArg Fin.val h).symm, if_pos h, List.getD_eq_getElem _ _ hib]
  · have hne : ¬ (j.val = l.val) := fun hc => h (Fin.ext hc.symm)
    have hil : l.val < (A[i.val]).length := by
      rw [hrow _ (List.getElem_mem hi)]
      exact l.isLt
    rw [if_neg hne, if_neg h, List.getD_eq_getElem _ _ hi, List.getD_eq_getElem _ _ hil]

theorem linSolve_length {A : List (List ℚ)} {b w : List ℚ}
    (h : linSolve A b = some w) : w.length = A.length := by
  simp only [linSolve] at h
  split at h
  · exact absurd h (by simp)
  · have hw := Option.some_injective _ h
    rw [← hw]
    simp

theorem linSolve_sound (n : ℕ) (A : List (List ℚ)) (b w : List ℚ)
    (hA : A.length = n) (hrow : ∀ r ∈ A, r.length = n) (hb : b.length = n)
    (h : linSolve A b = some w) :
    (toMat n n A) *ᵥ vecOf n w = vecOf n b := by
  rw [linSolve] at h
  split at h
  · exact absurd h (by simp)
  · rename_i hd
    have hdet : (toMat n n A).det ≠ 0 := by
      rw [← detL_eq_det n A hA hrow]
      exact hd
    have hw : w = (List.range A.length).map fun j => detL (replaceCol A j b) / detL A := by
      exact (Option.some_injective _ h).symm
    have hvec : vecOf n w =
        (detL A)⁻¹ • Matrix.cramer (toMat n n A) (vecOf n b) := by
      funext i
      have hlen : ((List.range A.length).map
          fun j => detL (replaceCol A j b) / detL A).length = n := by simp [hA]
      have hi : i.val < n := i.isLt
      rw [vecOf, hw, hA, getD_map_range _ _ hi]
      have hzlen : (replaceCol A i.val b).length = n := by
        simp [replaceCol, List.length_zipWith, hA, hb]
      have hzrows : ∀ s ∈ replaceCol A i.val b, s.length = n :=
        replaceCol_rows_length n A b hrow
      rw [detL_eq_det n _ hzlen hzrows, toMat_replaceCol n A b hA hrow hb i,
        ← Matrix.cramer_apply, detL_eq_det n A hA hrow]
      simp [Pi.smul_apply, div_eq_inv_mul, smul_eq_mul]
    rw [hvec, Matrix.mulVec_smul, Matrix.mulVec_cramer, smul_smul,
      detL_eq_det n A hA hrow, inv_mul_cancel₀ hdet, one_smul]

/-! ## Sums over lists as sums over `Fin n` -/

theorem sum_map_fin_n (g : List ℚ → ℚ) (n : ℕ) :
    ∀ A : List (List ℚ), A.length = n →
      (A.map g).sum = ∑ r : Fin n, g (A.getD r.val []) := by
  induction n with
  | zero =>
      intro A hA
      match A, hA with
      | [], _ => simp
  | succ m ih =>
      intro A hA
      match A, hA with
      | a :: as, hA =>
          rw [List.map_cons, List.sum_cons, ih as (by simpa using hA), Fin.sum_univ_succ]
          simp

theorem sum_zipWith_fin (f : ℚ → ℚ → ℚ) (n : ℕ) :
    ∀ a b : List ℚ, a.length = n → b.length = n →
      (List.zipWith f a b).sum = ∑ i : Fin n, f (a.getD i.val 0) (b.getD i.val 0) := by
  induction n with
  | zero =>
      intro a b ha hb
      match a, b, ha, hb with
      | [], [], _, _ => simp
  | succ m ih =>
      intro a b ha hb
      match a, b, ha, hb with
      | x :: xs, y :: ys, ha, hb =>
          rw [List.zipWith_cons_cons, List.sum_cons,
            ih xs ys (by simpa using ha) (by simpa using hb), Fin.sum_univ_succ]
          simp

theorem sum_map_sq_fin (n : ℕ) (a b : List ℚ) (ha : a.length = n) (hb : b.length = n) :
    ((List.zipWith (· - ·) a b).map fun v => v ^ 2).sum =
      ∑ i : Fin n, (a.getD i.val 0 - b.getD i.val 0) ^ 2 := by
  rw [List.map_zipWith]
  exact sum_zipWith_fin (fun u v => (u - v) ^ 2) n a b ha hb

theorem sum_map_zip_fin (g : List ℚ × ℚ → ℚ) (n : ℕ) :
    ∀ (A : List (List ℚ)) (t : List ℚ), A.length = n → t.length = n →
      ((A.zip t).map g).sum =
        ∑ r : Fin n, g (A.getD r.val [], t.getD r.val 0) := by
  induction n with
  | zero =>
      intro A t hA ht
      match A, t, hA, ht with
      | [], [], _, _ => simp
  | succ m ih =>
      intro A t hA ht
      match A, t, hA, ht with
      | a :: as, y :: ys, hA, ht =>
          rw [List.zip_cons_cons, List.map_cons, List.sum_cons,
            ih as ys (by simpa using hA) (by simpa using ht), Fin.sum_univ_succ]
          simp

/-! ## The normal-equations data as Mathlib matrices -/

theorem gramL_length (n : ℕ) (A : List (List ℚ)) : (gramL n A).length = n := by
  simp [gramL]

theorem gramL_rows_length (n : ℕ) (A : List (List ℚ)) :
    ∀ r ∈ gramL n A, r.length = n := by
  intro r hr
  rcases List.mem_map.mp hr with ⟨i, _, rfl⟩
  simp

theorem rhsL_length (n : ℕ) (A : List (List ℚ)) (t : List ℚ) : (rhsL n A t).length = n := by
  simp [rhsL]

theorem toMat_gramL (n : ℕ) (A : List (List ℚ)) :
    toMat n n (gramL n A) = (toMat A.length n A)ᵀ * (toMat A.length n A) := by
  ext i j
  rw [toMat, Matrix.of_apply, gramL, getD_map_range_list _ _ i.isLt,
    getD_map_range _ _ j.isLt, Matrix.mul_apply,
    sum_map_fin_n _ A.length A rfl]
  refine Finset.sum_congr rfl fun r _ => ?_
  rw [Matrix.transpose_apply, toMat, Matrix.of_apply, Matrix.of_apply]

theorem vecOf_rhsL (n : ℕ) (A : List (List ℚ)) (t : List ℚ) (ht : t.length = A.length) :
    vecOf n (rhsL n A t) = (toMat A.length n A)ᵀ *ᵥ vecOf A.length t := by
  funext i
  rw [vecOf, rhsL, getD_map_range _ _ i.isLt,
    sum_map_zip_fin _ A.length A t rfl ht, Matrix.mulVec, Matrix.dotProduct]
  refine Finset.sum_congr rfl fun r _ => ?_
  rw [Matrix.transpose_apply, toMat, Matrix.of_apply, vecOf]

theorem dotL_eq (n : ℕ) (r w : List ℚ) (hr : r.length = n) (hw : w.length = n) :
    dotL r w = ∑ j : Fin n, r.getD j.val 0 * w.getD j.val 0 := by
  rw [dotL, sum_zipWith_fin (· * ·) n r w hr hw]

theorem matVecL_getD (n : ℕ) (A : List (List ℚ)) (w : List ℚ)
    (hrow : ∀ r ∈ A, r.length = n) (hw : w.length = n) (i : Fin A.length) :
    (matVecL A w).getD i.val 0 = ((toMat A.length n A) *ᵥ vecOf n w) i := by
  have hi : i.val < (A.map fun r => dotL r w).length := by simp [i.isLt]
  rw [matVecL, List.getD_eq_getElem _ _ hi, List.getElem_map,
    dotL_eq n _ w (hrow _ (List.getElem_mem (by simp [i.isLt]))) hw,
    Matrix.mulVec, Matrix.dotProduct]
  refine Finset.sum_congr rfl fun j _ => ?_
  rw [toMat, Matrix.of_apply, vecOf, List.getD_eq_getElem _ _ i.isLt]

theorem matVecL_length (A : List (List ℚ)) (w : List ℚ) :
    (matVecL A w).length = A.length := by simp [matVecL]

/-! ## The design matrix: lengths and the from-scratch Vandermonde view -/

theorem buildX_length (v : List ℚ) (k : ℕ) : (buildX v k).length = v.length := by
  induction k with
  | zero => simp [buildX]
  | succ m ih => simp [buildX, List.length_zipWith, ih]

theorem buildX_eq_vanderL (v : List ℚ) (k : ℕ) : buildX v k = vanderL v k := by
  induction k with
  | zero =>
      rw [buildX, vanderL]
      refine List.map_congr_left fun a _ => ?_
      rw [show List.range 1 = [0] from rfl]
      simp
  | succ m ih =>
      rw [buildX, ih, vanderL, vanderL, List.zipWith_map, List.zipWith_same]
      refine List.map_congr_left fun a _ => ?_
      conv_rhs => rw [List.range_succ]
      rw [List.map_append, List.map_singleton]

theorem vanderL_length (v : List ℚ) (k : ℕ) : (vanderL v k).length = v.length := by
  simp [vanderL]

theorem vanderL_rows_length (v : List ℚ) (k : ℕ) :
    ∀ r ∈ vanderL v k, r.length = k + 1 := by
  intro r hr
  rcases List.mem_map.mp hr with ⟨xi, _, rfl⟩
  simp

theorem toMat_vanderL (xs : List ℚ) (k : ℕ) :
    toMat xs.length (k + 1) (vanderL xs k) = vmat xs.length (k + 1) xs := by
  ext i j
  have hi : i.val < (vanderL xs k).length := by simp [vanderL, i.isLt]
  simp only [toMat, vmat, Matrix.of_apply]
  rw [List.getD_eq_getElem _ _ hi]
  simp only [vanderL]
  rw [List.getElem_map, getD_map_range _ _ j.isLt, List.getD_eq_getElem _ _ i.isLt]

theorem sliceL_map {α β : Type} (g : α → β) (a b : ℕ) (l : List α) :
    sliceL a b (l.map g) = (sliceL a b l).map g := by
  simp [sliceL, List.map_take, List.map_drop]

theorem deleteRangeL_map {α β : Type} (g : α → β) (a b : ℕ) (l : List α) :
    deleteRangeL a b (l.map g) = (deleteRangeL a b l).map g := by
  rw [deleteRangeL, deleteRangeL]
  split
  · rfl
  · simp [List.map_take, List.map_drop]

theorem sliceL_length {α : Type} (a b : ℕ) (l : List α) :
    (sliceL a b l).length = min b l.length - a := by
  simp [sliceL]

theorem deleteRangeL_length {α : Type} (a b : ℕ) (l : List α) :
    (deleteRangeL a b l).length =
      if b ≤ a then l.length else min a l.length + (l.length - b) := by
  rw [deleteRangeL]
  split
  · rfl
  · simp

/-! ## Inversion lemmas for `bmse`, `cell`, `sweepM`, `evaluate` -/

theorem bind_ok_inv {e α β : Type} {x : Except e α} {f : α → Except e β} {y : β}
    (h : (x >>= f) = .ok y) : ∃ v, x = .ok v ∧ f v = .ok y := by
  cases x with
  | error err => exact absurd h (by simp [Bind.bind, Except.bind])
  | ok v =>
      refine ⟨v, rfl, ?_⟩
      simpa [Bind.bind, Except.bind] using h

theorem bmse_eq_mseSpec (a b : List ℚ) (hab : a.length = b.length) :
    bmse a b = .ok (mseSpec a b) := by
  have hb : bsub a b = some (List.zipWith (· - ·) a b) := by
    rw [bsub, if_pos hab]
  simp only [bmse, hb, meanSq, mseSpec, List.length_zipWith, ← hab, Nat.min_self]

theorem bmse_ok_nonneg {a b : List ℚ} {v : ℚ} (h : bmse a b = .ok v) : 0 ≤ v := by
  rw [bmse] at h
  match hd : bsub a b, h with
  | some d, h =>
      have hv : v = meanSq d := by simpa using h.symm
      rw [hv, meanSq]
      refine div_nonneg (List.sum_nonneg ?_) (by positivity)
      intro q hq
      rcases List.mem_map.mp hq with ⟨u, _, rfl⟩
      positivity
  | none, h => exact absurd h (by simp)

theorem cell_ok_inv {n : ℕ} {X : List (List ℚ)} {t : List ℚ} {Xt : List (List ℚ)}
    {tt : List ℚ} {a b : ℕ} {y : ℚ × ℚ × ℚ} (h : cell n X t Xt tt a b = .ok y) :
    (deleteRangeL a b X).length = (deleteRangeL a b t).length ∧
    ∃ w, linSolve (gramL n (deleteRangeL a b X))
          (rhsL n (deleteRangeL a b X) (deleteRangeL a b t)) = some w ∧
        bmse (matVecL (sliceL a b X) w) (sliceL a b t) = .ok y.1 ∧
        bmse (matVecL Xt w) tt = .ok y.2.1 ∧
        bmse (matVecL (deleteRangeL a b X) w) (deleteRangeL a b t) = .ok y.2.2 := by
  rw [cell] at h
  split at h
  · exact absurd h (by simp)
  · rename_i hlen
    refine ⟨by simpa using hlen, ?_⟩
    split at h
    · exact absurd h (by simp)
    · rename_i w hw
      rcases bind_ok_inv h with ⟨cv, hcv, h2⟩
      rcases bind_ok_inv h2 with ⟨ind, hind, h3⟩
      rcases bind_ok_inv h3 with ⟨tr, htr, h4⟩
      have hy : y = (cv, ind, tr) := by simpa [Pure.pure, Except.pure] using h4.symm
      subst hy
      exact ⟨w, hw, hcv, hind, htr⟩

theorem sweepM_ok_length {α : Type} {f : ℕ → Except Err α} :
    ∀ {l : List ℕ} {ys : List α}, sweepM f l = .ok ys → ys.length = l.length := by
  intro l
  induction l with
  | nil =>
      intro ys h
      have : ys = [] := by simpa [sweepM] using h.symm
      simp [this]
  | cons i is ih =>
      intro ys h
      rw [sweepM] at h
      rcases bind_ok_inv h with ⟨y, _, h2⟩
      rcases bind_ok_inv h2 with ⟨zs, hzs, h3⟩
      have : ys = y :: zs := by simpa [Pure.pure, Except.pure] using h3.symm
      simp [this, ih hzs]

theorem sweepM_ok_getD {α : Type} {f : ℕ → Except Err α} (d : α) :
    ∀ {l : List ℕ} {ys : List α}, sweepM f l = .ok ys →
      ∀ i, (hi : i < l.length) → f (l.get ⟨i, hi⟩) = .ok (ys.getD i d) := by
  intro l
  induction l with
  | nil => intro ys _ i hi; exact absurd hi (by simp)
  | cons j js ih =>
      intro ys h i hi
      rw [sweepM] at h
      rcases bind_ok_inv h with ⟨y, hy, h2⟩
      rcases bind_ok_inv h2 with ⟨zs, hzs, h3⟩
      have hys : ys = y :: zs := by simpa [Pure.pure, Except.pure] using h3.symm
      subst hys
      match i with
      | 0 => simpa using hy
      | i' + 1 => exact ih hzs i' (by simpa using hi)

theorem sweepM_error_mem {α : Type} {f : ℕ → Except Err α} {e : Err} :
    ∀ {l : List ℕ}, sweepM f l = .error e → ∃ i ∈ l, f i = .error e := by
  intro l
  induction l with
  | nil => intro h; exact absurd h (by simp [sweepM])
  | cons j js ih =>
      intro h
      rw [sweepM] at h
      match hj : f j, h with
      | .error e', h =>
          have : e' = e := by simpa [Bind.bind, Except.bind] using h
          exact ⟨j, by simp, this ▸ hj⟩
      | .ok y, h =>
          have h2 : (sweepM f js >>= fun ys => pure (y :: ys)) = .error e := by
            simpa [Bind.bind, Except.bind] using h
          match hs : sweepM f js, h2 with
          | .error e', h2 =>
              have : e' = e := by simpa [Bind.bind, Except.bind] using h2
              rcases ih (this ▸ hs) with ⟨i, hmem, hfi⟩
              exact ⟨i, by simp [hmem], hfi⟩
          | .ok zs, h2 =>
              exact absurd h2 (by simp [Bind.bind, Except.bind, Pure.pure, Except.pure])

theorem tableOf_length (K mo : ℕ) (g : ℚ × ℚ × ℚ → ℚ) (kls : List (List (ℚ × ℚ × ℚ))) :
    (tableOf K mo g kls).length = K := by
  simp [tableOf]

theorem tableOf_rows_length (K mo : ℕ) (g : ℚ × ℚ × ℚ → ℚ)
    (kls : List (List (ℚ × ℚ × ℚ))) :
    ∀ row ∈ tableOf K mo g kls, row.length = mo + 1 := by
  intro row hrow
  rcases List.mem_map.mp hrow with ⟨f, _, rfl⟩
  simp

theorem tableOf_getD (K mo : ℕ) (g : ℚ × ℚ × ℚ → ℚ) (kls : List (List (ℚ × ℚ × ℚ)))
    {f k : ℕ} (hf : f < K) (hk : k < mo + 1) :
    ((tableOf K mo g kls).getD f []).getD k 0 = g ((kls.getD k []).getD f (0, 0, 0)) := by
  rw [tableOf, getD_map_range_list _ _ hf, getD_map_range _ _ hk]

theorem evaluate_ok_inv {x t xt tt : List ℚ} {mo K : ℕ} {cv ind tr : List (List ℚ)}
    (h : evaluate x t xt tt mo K = .ok (cv, ind, tr)) :
    K ≠ 0 ∧ ∃ kls,
      sweepM (fun k => sweepM (fun fold => cellAt x t xt tt K k fold) (List.range K))
          (List.range (mo + 1)) = .ok kls ∧
        cv = tableOf K mo (fun p => p.1) kls ∧
        ind = tableOf K mo (fun p => p.2.1) kls ∧
        tr = tableOf K mo (fun p => p.2.2) kls := by
  rw [evaluate] at h
  split at h
  · exact absurd h (by simp)
  · rename_i hK
    refine ⟨hK, ?_⟩
    match hs : sweepM (fun k =>
        sweepM (fun fold => cellAt x t xt tt K k fold) (List.range K))
        (List.range (mo + 1)), h with
    | .error e, h => exact absurd h (by simp)
    | .ok kls, h =>
        have h3 := h
        simp only [Except.ok.injEq, Prod.mk.injEq] at h3
        exact ⟨kls, rfl, h3.1.symm, h3.2.1.symm, h3.2.2.symm⟩

theorem evaluate_ok_cellAt {x t xt tt : List ℚ} {mo K : ℕ} {cv ind tr : List (List ℚ)}
    (h : evaluate x t xt tt mo K = .ok (cv, ind, tr)) {k f : ℕ}
    (hk : k ≤ mo) (hf : f < K) :
    ∃ y, cellAt x t xt tt K k f = .ok y ∧
      (cv.getD f []).getD k 0 = y.1 ∧
      (ind.getD f []).getD k 0 = y.2.1 ∧
      (tr.getD f []).getD k 0 = y.2.2 := by
  rcases evaluate_ok_inv h with ⟨hK, kls, hkls, hcv, hind, htr⟩
  have hkmo : k < (List.range (mo + 1)).length := by simp [Nat.lt_succ_of_le hk]
  have hout := sweepM_ok_getD ([] : List (ℚ × ℚ × ℚ)) hkls k hkmo
  rw [List.get_eq_getElem, List.getElem_range] at hout
  have hfK : f < (List.range K).length := by simp [hf]
  have hin := sweepM_ok_getD ((0, 0, 0) : ℚ × ℚ × ℚ) hout f hfK
  rw [List.get_eq_getElem, List.getElem_range] at hin
  refine ⟨(kls.getD k []).getD f (0, 0, 0), hin, ?_, ?_, ?_⟩
  · rw [hcv, tableOf_getD _ _ _ _ hf (Nat.lt_succ_of_le hk)]
  · rw [hind, tableOf_getD _ _ _ _ hf (Nat.lt_succ_of_le hk)]
  · rw [htr, tableOf_getD _ _ _ _ hf (Nat.lt_succ_of_le hk)]

/-! ## Least squares: the normal-equations solution minimises the
sum of squared residuals -/

theorem ols_optimal {m n : ℕ} (M : Matrix (Fin m) (Fin n) ℚ) (tv : Fin m → ℚ)
    (w v : Fin n → ℚ) (hne : (Mᵀ * M) *ᵥ w = Mᵀ *ᵥ tv) :
    ∑ i, ((M *ᵥ w - tv) i) ^ 2 ≤ ∑ i, ((M *ᵥ v - tv) i) ^ 2 := by
  set r := M *ᵥ w - tv with hr
  set e := M *ᵥ (v - w) with he
  have hperp : Mᵀ *ᵥ r = 0 := by
    rw [hr, Matrix.mulVec_sub, Matrix.mulVec_mulVec, hne, sub_self]
  have horth : ∑ i, r i * e i = 0 := by
    have h1 : ∑ i, r i * e i = r ⬝ᵥ e := rfl
    rw [h1, he, Matrix.dotProduct_mulVec, ← Matrix.mulVec_transpose, hperp,
      Matrix.zero_dotProduct]
  have hkey : ∀ i, (M *ᵥ v - tv) i = r i + e i := by
    intro i
    rw [hr, he, Matrix.mulVec_sub]
    simp only [Pi.sub_apply]
    ring
  have hsum : ∑ i, ((M *ᵥ v - tv) i) ^ 2 = (∑ i, (r i) ^ 2) + ∑ i, (e i) ^ 2 := by
    have hpt : ∀ i : Fin m, ((M *ᵥ v - tv) i) ^ 2 =
        (r i) ^ 2 + (2 * (r i * e i) + (e i) ^ 2) := by
      intro i
      rw [hkey i]
      ring
    rw [Finset.sum_congr rfl fun i _ => hpt i, Finset.sum_add_distrib,
      Finset.sum_add_distrib, ← Finset.mul_sum, horth]
    ring
  rw [hsum]
  exact le_add_of_nonneg_right (Finset.sum_nonneg fun i _ => by positivity)

/-- Evaluating the order-`k+1` Vandermonde design at a coefficient vector
extended by a trailing zero gives the order-`k` predictions. -/
theorem vmat_mulVec_snoc (m k : ℕ) (xs : List ℚ) (w : Fin (k + 1) → ℚ) :
    vmat m (k + 1 + 1) xs *ᵥ Fin.snoc w 0 = vmat m (k + 1) xs *ᵥ w := by
  funext i
  simp only [vmat]
  rw [Matrix.mulVec, Matrix.mulVec, Matrix.dotProduct, Matrix.dotProduct,
    Fin.sum_univ_castSucc]
  simp

theorem toMat_gramL_of (n m : ℕ) (A : List (List ℚ)) (hm : m = A.length) :
    toMat n n (gramL n A) = (toMat m n A)ᵀ * toMat m n A := by
  subst hm
  exact toMat_gramL n A

theorem vecOf_rhsL_of (n m : ℕ) (A : List (List ℚ)) (t : List ℚ) (hm : m = A.length)
    (ht : t.length = A.length) :
    vecOf n (rhsL n A t) = (toMat m n A)ᵀ *ᵥ vecOf m t := by
  subst hm
  exact vecOf_rhsL n A t ht

theorem bmse_ok_value {a b : List ℚ} {v : ℚ} (hlen : a.length = b.length)
    (h : bmse a b = .ok v) : v = mseSpec a b := by
  have h2 := bmse_eq_mseSpec a b hlen
  rw [h] at h2
  simpa using h2

/-! ## C1: per-cell normal equations and loss formulas -/

/-- C1: for every order `k ≤ max_order` and fold `f < K` of a successful
`evaluate` run, the coefficient vector `w` computed for that cell solves the
normal equations `(X_trainᵀ X_train) w = X_trainᵀ t_train` over the training
complement of the fold, and the recorded cross-validation, independent, and
training losses are the arithmetic means of the row-wise squared differences
of `X_fold·w` vs `t_fold`, `X_test·w` vs `t_test`, and `X_train·w` vs
`t_train` respectively. -/
theorem claim1_cell_normal_equations_and_losses
    (x t xt tt : List ℚ) (mo K : ℕ) (cv ind tr : List (List ℚ))
    (hxt : x.length = t.length) (htest : xt.length = tt.length)
    (h : evaluate x t xt tt mo K = .ok (cv, ind, tr))
    (k f : ℕ) (hk : k ≤ mo) (hf : f < K) :
    ∃ w : List ℚ,
      linSolve (gramL (k + 1) (X_trainAt x K k f))
          (rhsL (k + 1) (X_trainAt x K k f) (t_trainAt x t K f)) = some w ∧
      ((toMat (X_trainAt x K k f).length (k + 1) (X_trainAt x K k f))ᵀ *
            toMat (X_trainAt x K k f).length (k + 1) (X_trainAt x K k f)) *ᵥ
          vecOf (k + 1) w =
        (toMat (X_trainAt x K k f).length (k + 1) (X_trainAt x K k f))ᵀ *ᵥ
          vecOf (X_trainAt x K k f).length (t_trainAt x t K f) ∧
      (cv.getD f []).getD k 0 =
        mseSpec (matVecL (X_foldAt x K k f) w) (t_foldAt x t K f) ∧
      (ind.getD f []).getD k 0 = mseSpec (matVecL (buildX xt k) w) tt ∧
      (tr.getD f []).getD k 0 =
        mseSpec (matVecL (X_trainAt x K k f) w) (t_trainAt x t K f) := by
  rcases evaluate_ok_cellAt h hk hf with ⟨y, hcell, hcv0, hind0, htr0⟩
  rw [cellAt] at hcell
  rcases cell_ok_inv hcell with ⟨hlen, w, hsolve, hcv, hind, htr⟩
  rw [show deleteRangeL (foldStart x K f) (foldStop x K f) (buildX x k) =
      X_trainAt x K k f from rfl] at hlen hsolve htr
  rw [show deleteRangeL (foldStart x K f) (foldStop x K f) t =
      t_trainAt x t K f from rfl] at hlen hsolve htr
  rw [show sliceL (foldStart x K f) (foldStop x K f) (buildX x k) =
      X_foldAt x K k f from rfl] at hcv
  rw [show sliceL (foldStart x K f) (foldStop x K f) t =
      t_foldAt x t K f from rfl] at hcv
  refine ⟨w, hsolve, ?_, ?_, ?_, ?_⟩
  · have hs := linSolve_sound (k + 1) _ _ w (gramL_length _ _) (gramL_rows_length _ _)
      (rhsL_length _ _ _) hsolve
    rw [toMat_gramL_of (k + 1) (X_trainAt x K k f).length _ rfl,
      vecOf_rhsL_of (k + 1) (X_trainAt x K k f).length _ _ rfl hlen.symm] at hs
    exact hs
  · have hl : (matVecL (X_foldAt x K k f) w).length = (t_foldAt x t K f).length := by
      rw [matVecL_length, X_foldAt, sliceL_length, buildX_length, hxt, t_foldAt,
        sliceL_length]
    rw [hcv0]
    exact bmse_ok_value hl hcv
  · have hl : (matVecL (buildX xt k) w).length = tt.length := by
      rw [matVecL_length, buildX_length, htest]
    rw [hind0]
    exact bmse_ok_value hl hind
  · have hl : (matVecL (X_trainAt x K k f) w).length = (t_trainAt x t K f).length := by
      rw [matVecL_length]
      exact hlen
    rw [htr0]
    exact bmse_ok_value hl htr

set_option maxRecDepth 8000 in
/-- Witness for C1: the concrete run `evaluate [0..9] [0..9] [0] [0] 0 2`
succeeds and the cell `(k, f) = (0, 0)` satisfies the normal equations and
the three loss formulas. -/
theorem claim1_witness :
    ∃ w : List ℚ,
      linSolve (gramL (0 + 1) (X_trainAt [0, 1, 2, 3, 4, 5, 6, 7, 8, 9] 2 0 0))
          (rhsL (0 + 1) (X_trainAt [0, 1, 2, 3, 4, 5, 6, 7, 8, 9] 2 0 0)
            (t_trainAt [0, 1, 2, 3, 4, 5, 6, 7, 8, 9] [0, 1, 2, 3, 4, 5, 6, 7, 8, 9] 2 0)) =
        some w ∧
      ((toMat (X_trainAt [0, 1, 2, 3, 4, 5, 6, 7, 8, 9] 2 0 0).length (0 + 1)
              (X_trainAt [0, 1, 2, 3, 4, 5, 6, 7, 8, 9] 2 0 0))ᵀ *
            toMat (X_trainAt [0, 1, 2, 3, 4, 5, 6, 7, 8, 9] 2 0 0).length (0 + 1)
              (X_trainAt [0, 1, 2, 3, 4, 5, 6, 7, 8, 9] 2 0 0)) *ᵥ
          vecOf (0 + 1) w =
        (toMat (X_trainAt [0, 1, 2, 3, 4, 5, 6, 7, 8, 9] 2 0 0).length (0 + 1)
            (X_trainAt [0, 1, 2, 3, 4, 5, 6, 7, 8, 9] 2 0 0))ᵀ *ᵥ
          vecOf (X_trainAt [0, 1, 2, 3, 4, 5, 6, 7, 8, 9] 2 0 0).length
            (t_trainAt [0, 1, 2, 3, 4, 5, 6, 7, 8, 9] [0, 1, 2, 3, 4, 5, 6, 7, 8, 9] 2 0) ∧
      (([[25], [95 / 3]] : List (List ℚ)).getD 0 []).getD 0 0 =
        mseSpec (matVecL (X_foldAt [0, 1, 2, 3, 4, 5, 6, 7, 8, 9] 2 0 0) w)
          (t_foldAt [0, 1, 2, 3, 4, 5, 6, 7, 8, 9] [0, 1, 2, 3, 4, 5, 6, 7, 8, 9] 2 0) ∧
      (([[25], [0]] : List (List ℚ)).getD 0 []).getD 0 0 =
        mseSpec (matVecL (buildX [0] 0) w) [0] ∧
      (([[20 / 3], [0]] : List (List ℚ)).getD 0 []).getD 0 0 =
        mseSpec (matVecL (X_trainAt [0, 1, 2, 3, 4, 5, 6, 7, 8, 9] 2 0 0) w)
          (t_trainAt [0, 1, 2, 3, 4, 5, 6, 7, 8, 9] [0, 1, 2, 3, 4, 5, 6, 7, 8, 9] 2 0) :=
  claim1_cell_normal_equations_and_losses
    [0, 1, 2, 3, 4, 5, 6, 7, 8, 9] [0, 1, 2, 3, 4, 5, 6, 7, 8, 9] [0] [0] 0 2
    [[25], [95 / 3]] [[25], [0]] [[20 / 3], [0]]
    (by decide) (by decide) (by with_unfolding_all decide) 0 0 (by decide) (by decide)

/-! ## C5: incremental design-matrix construction -/

/-- C5: at every order `k` the design matrix the notebook fits with has
exactly the monomial columns `[1, x, …, x^k]` (it equals the from-scratch
Vandermonde matrix of the spec), and the matrix for order `k+1` is obtained
from the one for order `k` by appending the single column `x^(k+1)`. -/
theorem claim5_incremental_design_is_vandermonde (v : List ℚ) (k : ℕ) :
    buildX v k = vanderL v k ∧
    buildX v (k + 1) =
      List.zipWith (fun row e => row ++ [e]) (buildX v k) (v.map (· ^ (k + 1))) :=
  ⟨buildX_eq_vanderL v k, rfl⟩

/-! ## C9: shape of the loss tables, and non-negativity of the losses
that are genuine (nonempty) means

The spec's unconditional non-negativity fails on the program: a valid
input can produce an empty fold (`N = 20`, `K = 11` gives fold sizes
`[2 × 10, 0]`), and the cross-validation loss recorded for an empty fold
is the mean of an empty array — NaN in numpy, which is not a non-negative
loss, yet the table is still returned.  Over ℚ `meanSq []` collapses to
`0/0 = 0`, so the statements below never rely on that value: the training
complement of a returned cell is proved nonempty outright (an empty
complement gives a singular zero Gram matrix and aborts the call), and
cross-validation / independent losses are asserted non-negative only for
nonempty folds / nonempty test arrays. -/

theorem cellAt_ok_nonneg {x t xt tt : List ℚ} {K k f : ℕ} {y : ℚ × ℚ × ℚ}
    (h : cellAt x t xt tt K k f = .ok y) : 0 ≤ y.1 ∧ 0 ≤ y.2.1 ∧ 0 ≤ y.2.2 := by
  rw [cellAt] at h
  rcases cell_ok_inv h with ⟨-, w, -, hcv, hind, htr⟩
  exact ⟨bmse_ok_nonneg hcv, bmse_ok_nonneg hind, bmse_ok_nonneg htr⟩

theorem detN_zero_first_row (n : ℕ) (r : List ℚ) (rs : List (List ℚ))
    (hr : ∀ j, r.getD j 0 = 0) : detN (n + 1) (r :: rs) = 0 := by
  simp only [detN]
  apply List.sum_eq_zero
  intro q hq
  rcases List.mem_map.mp hq with ⟨j, -, rfl⟩
  rw [hr j, mul_zero, zero_mul]

theorem detL_gramL_nil (k : ℕ) : detL (gramL (k + 1) []) = 0 := by
  have hne : gramL (k + 1) ([] : List (List ℚ)) ≠ [] := by
    intro hc
    have hlen := gramL_length (k + 1) ([] : List (List ℚ))
    rw [hc] at hlen
    exact absurd hlen.symm (Nat.succ_ne_zero k)
  obtain ⟨r, rs, hcons⟩ := List.exists_cons_of_ne_nil hne
  have hr : ∀ j, r.getD j 0 = 0 := by
    intro j
    have hr0 : r = (gramL (k + 1) ([] : List (List ℚ))).getD 0 [] := by
      rw [hcons]
      simp
    rw [hr0, gramL, getD_map_range_list _ _ (Nat.succ_pos k)]
    by_cases hj : j < k + 1
    · rw [getD_map_range _ _ hj]
      simp
    · rw [List.getD_eq_default _ _ (by simp; omega)]
  have hlen := gramL_length (k + 1) ([] : List (List ℚ))
  rw [detL, hlen, hcons]
  exact detN_zero_first_row k r rs hr

theorem cellAt_ok_train_nonempty {x t xt tt : List ℚ} {K k f : ℕ} {y : ℚ × ℚ × ℚ}
    (h : cellAt x t xt tt K k f = .ok y) : X_trainAt x K k f ≠ [] := by
  rw [cellAt] at h
  rcases cell_ok_inv h with ⟨-, w, hsolve, -, -, -⟩
  intro hnil
  have hX : deleteRangeL (foldStart x K f) (foldStop x K f) (buildX x k) =
      ([] : List (List ℚ)) := hnil
  rw [hX, linSolve, if_pos (detL_gramL_nil k)] at hsolve
  exact absurd hsolve (by simp)

set_option maxRecDepth 8000 in
/-- C9 counterexample: `N = 20`, `K = 11` is a valid input (`1 ≤ K ≤ N`),
yet the fold sizes are `[2 × 10, 0]`, so fold 10 is empty (its slice is
`X[20:20]`), and `evaluate` still returns a full loss table whose fold-10
cross-validation entry is the mean of an EMPTY array.  In the program that
mean is numpy's NaN (a RuntimeWarning, not an exception), so the returned
table holds an entry that is not a non-negative loss, refuting the claim.
With the alternating targets below, every genuine loss in the table is
`1/4`; the fold-10 cross-validation slot is the sole empty mean, which the
exact-arithmetic embedding collapses to `meanSq [] = 0/0 = 0` where numpy
records NaN. -/
theorem claim9_counterexample :
    evaluate
        [0, 1, 2, 3, 4, 5, 6, 7, 8, 9, 10, 11, 12, 13, 14, 15, 16, 17, 18, 19]
        [0, 1, 0, 1, 0, 1, 0, 1, 0, 1, 0, 1, 0, 1, 0, 1, 0, 1, 0, 1]
        [0] [0] 0 11 =
      .ok ([[1 / 4], [1 / 4], [1 / 4], [1 / 4], [1 / 4], [1 / 4], [1 / 4],
            [1 / 4], [1 / 4], [1 / 4], [0]],
          [[1 / 4], [1 / 4], [1 / 4], [1 / 4], [1 / 4], [1 / 4], [1 / 4],
            [1 / 4], [1 / 4], [1 / 4], [1 / 4]],
          [[1 / 4], [1 / 4], [1 / 4], [1 / 4], [1 / 4], [1 / 4], [1 / 4],
            [1 / 4], [1 / 4], [1 / 4], [1 / 4]]) ∧
    X_foldAt [0, 1, 2, 3, 4, 5, 6, 7, 8, 9, 10, 11, 12, 13, 14, 15, 16, 17, 18, 19]
        11 0 10 = [] ∧
    t_foldAt [0, 1, 2, 3, 4, 5, 6, 7, 8, 9, 10, 11, 12, 13, 14, 15, 16, 17, 18, 19]
        [0, 1, 0, 1, 0, 1, 0, 1, 0, 1, 0, 1, 0, 1, 0, 1, 0, 1, 0, 1]
        11 10 = [] ∧
    (([[1 / 4], [1 / 4], [1 / 4], [1 / 4], [1 / 4], [1 / 4], [1 / 4],
        [1 / 4], [1 / 4], [1 / 4], [0]] : List (List ℚ)).getD 10 []).getD 0 0 =
      meanSq [] := by
  refine ⟨?_, ?_, ?_, ?_⟩ <;> with_unfolding_all decide

/-- C9 (amended): whenever `evaluate` returns loss tables, each of the
three tables has exactly `K` rows of `max_order + 1` entries — one entry
per `(fold, order)` pair.  Every training loss is the mean over a provably
nonempty training complement (an empty complement would make the
normal-equations matrix singular and abort the call) and is non-negative;
every cross-validation loss of a nonempty fold is non-negative; and every
independent loss is non-negative whenever the test arrays are nonempty.
The restriction to nonempty folds is necessary: valid inputs can produce
an empty fold, whose recorded cross-validation entry is the mean of an
empty array — NaN in the program, not a non-negative loss. -/
theorem claim9_amended_table_shape_and_guarded_nonneg
    (x t xt tt : List ℚ) (mo K : ℕ) (cv ind tr : List (List ℚ))
    (h : evaluate x t xt tt mo K = .ok (cv, ind, tr)) :
    (cv.length = K ∧ ind.length = K ∧ tr.length = K) ∧
    ((∀ row ∈ cv, row.length = mo + 1) ∧ (∀ row ∈ ind, row.length = mo + 1) ∧
      ∀ row ∈ tr, row.length = mo + 1) ∧
    (∀ f k, f < K → k < mo + 1 → X_foldAt x K k f ≠ [] →
      t_foldAt x t K f ≠ [] → 0 ≤ (cv.getD f []).getD k 0) ∧
    (xt ≠ [] → tt ≠ [] → ∀ row ∈ ind, ∀ v ∈ row, 0 ≤ v) ∧
    (∀ f k, f < K → k < mo + 1 →
      X_trainAt x K k f ≠ [] ∧ 0 ≤ (tr.getD f []).getD k 0) := by
  rcases evaluate_ok_inv h with ⟨hK, kls, hkls, hcv, hind, htr⟩
  have hcvlen : cv.length = K := by rw [hcv, tableOf_length]
  have hindlen : ind.length = K := by rw [hind, tableOf_length]
  have htrlen : tr.length = K := by rw [htr, tableOf_length]
  have hcvrow : ∀ row ∈ cv, row.length = mo + 1 := by
    rw [hcv]; exact tableOf_rows_length _ _ _ _
  have hindrow : ∀ row ∈ ind, row.length = mo + 1 := by
    rw [hind]; exact tableOf_rows_length _ _ _ _
  have htrrow : ∀ row ∈ tr, row.length = mo + 1 := by
    rw [htr]; exact tableOf_rows_length _ _ _ _
  refine ⟨⟨hcvlen, hindlen, htrlen⟩, ⟨hcvrow, hindrow, htrrow⟩, ?_, ?_, ?_⟩
  · intro f k hf hk hXf htf
    rcases evaluate_ok_cellAt h (Nat.lt_succ_iff.mp hk) hf with ⟨y, hy, e1, -, -⟩
    rw [e1]
    exact (cellAt_ok_nonneg hy).1
  · intro hxt htt row hrow v hv
    rcases List.mem_iff_getElem.mp hrow with ⟨f, hfT, hfrow⟩
    rcases List.mem_iff_getElem.mp hv with ⟨k, hkrow, hkv⟩
    have hfK : f < K := hindlen ▸ hfT
    have hkmo : k < mo + 1 := by
      rw [← hindrow row hrow]
      exact hkrow
    have hv0 : v = (ind.getD f []).getD k 0 := by
      rw [List.getD_eq_getElem _ _ hfT, hfrow, List.getD_eq_getElem _ _ hkrow, hkv]
    rcases evaluate_ok_cellAt h (Nat.lt_succ_iff.mp hkmo) hfK with ⟨y, hy, -, e2, -⟩
    rw [hv0, e2]
    exact (cellAt_ok_nonneg hy).2.1
  · intro f k hf hk
    rcases evaluate_ok_cellAt h (Nat.lt_succ_iff.mp hk) hf with ⟨y, hy, -, -, e3⟩
    refine ⟨cellAt_ok_train_nonempty hy, ?_⟩
    rw [e3]
    exact (cellAt_ok_nonneg hy).2.2

set_option maxRecDepth 8000 in
/-- Witness for C9 (amended) at the concrete run
`evaluate [0..9] [0..9] [0] [0] 0 2`, whose two folds are nonempty. -/
theorem claim9_amended_witness :
    ((([[25], [95 / 3]] : List (List ℚ)).length = 2 ∧
        ([[25], [0]] : List (List ℚ)).length = 2 ∧
        ([[20 / 3], [0]] : List (List ℚ)).length = 2) ∧
      ((∀ row ∈ ([[25], [95 / 3]] : List (List ℚ)), row.length = 0 + 1) ∧
        (∀ row ∈ ([[25], [0]] : List (List ℚ)), row.length = 0 + 1) ∧
        ∀ row ∈ ([[20 / 3], [0]] : List (List ℚ)), row.length = 0 + 1) ∧
      (∀ f k, f < 2 → k < 0 + 1 →
        X_foldAt [0, 1, 2, 3, 4, 5, 6, 7, 8, 9] 2 k f ≠ [] →
        t_foldAt [0, 1, 2, 3, 4, 5, 6, 7, 8, 9] [0, 1, 2, 3, 4, 5, 6, 7, 8, 9]
          2 f ≠ [] →
        0 ≤ (([[25], [95 / 3]] : List (List ℚ)).getD f []).getD k 0) ∧
      (([0] : List ℚ) ≠ [] → ([0] : List ℚ) ≠ [] →
        ∀ row ∈ ([[25], [0]] : List (List ℚ)), ∀ v ∈ row, 0 ≤ v) ∧
      (∀ f k, f < 2 → k < 0 + 1 →
        X_trainAt [0, 1, 2, 3, 4, 5, 6, 7, 8, 9] 2 k f ≠ [] ∧
        0 ≤ (([[20 / 3], [0]] : List (List ℚ)).getD f []).getD k 0)) :=
  claim9_amended_table_shape_and_guarded_nonneg
    [0, 1, 2, 3, 4, 5, 6, 7, 8, 9] [0, 1, 2, 3, 4, 5, 6, 7, 8, 9] [0] [0] 0 2
    [[25], [95 / 3]] [[25], [0]] [[20 / 3], [0]] (by with_unfolding_all decide)

/-! ## Fold sizes and their cumulative sums -/

theorem sizes_length (N K : ℕ) (hK : 1 ≤ K) : (sizes N K).length = K := by
  simp [sizes]
  omega

theorem sizes_getD_front (N K f : ℕ) (hf : f < K - 1) :
    (sizes N K).getD f 0 = ((N / 10 : ℕ) : ℤ) := by
  rw [sizes, List.getD_append _ _ _ _ (by simpa using hf),
    List.getD_eq_getElem _ _ (by simpa using hf), List.getElem_replicate]

theorem sizes_getD_last (N K : ℕ) :
    (sizes N K).getD (K - 1) 0 = (N : ℤ) - ((K : ℤ) - 1) * ((N / 10 : ℕ) : ℤ) := by
  rw [sizes, List.getD_append_right _ _ _ _ (by simp)]
  simp only [List.length_replicate, Nat.sub_self, List.getD_cons_zero]
  ring

theorem sizes_sum (N K : ℕ) (hK : 1 ≤ K) : (sizes N K).sum = (N : ℤ) := by
  rw [sizes, List.sum_append, List.sum_replicate, List.sum_singleton, nsmul_eq_mul]
  have hc : ((K - 1 : ℕ) : ℤ) = (K : ℤ) - 1 := by omega
  rw [hc]
  ring

theorem scanl_add_getD (s : List ℤ) (a : ℤ) :
    ∀ f, f ≤ s.length → (List.scanl (· + ·) a s).getD f 0 = a + (s.take f).sum := by
  induction s generalizing a with
  | nil =>
      intro f hf
      match f, hf with
      | 0, _ => simp [List.scanl]
  | cons b bs ih =>
      intro f hf
      match f with
      | 0 => simp [List.scanl]
      | f' + 1 =>
          rw [List.scanl_cons]
          have hskip : ([a] ++ List.scanl (· + ·) (a + b) bs).getD (f' + 1) 0 =
              (List.scanl (· + ·) (a + b) bs).getD f' 0 := by
            rw [List.getD_append_right _ _ _ _ (by simp)]
            simp
          rw [hskip, ih (a + b) f' (by simpa using hf), List.take_succ_cons, List.sum_cons]
          ring

theorem sizes_take_sum (N K f : ℕ) (hf : f ≤ K - 1) :
    ((sizes N K).take f).sum = (f : ℤ) * ((N / 10 : ℕ) : ℤ) := by
  rw [sizes, List.take_append_of_le_length (by simpa using hf), List.take_replicate,
    min_eq_left hf, List.sum_replicate, nsmul_eq_mul]

theorem c_sizes_getD (N K : ℕ) (hK : 1 ≤ K) :
    ∀ f, f ≤ K → (c_sizes N K).getD f 0 =
      if f < K then (f : ℤ) * ((N / 10 : ℕ) : ℤ) else (N : ℤ) := by
  intro f hf
  have hlen : (sizes N K).length = K := sizes_length N K hK
  rw [c_sizes, scanl_add_getD _ _ f (by rw [hlen]; exact hf), zero_add]
  by_cases h : f < K
  · rw [if_pos h, sizes_take_sum N K f (by omega)]
  · have hfK : f = K := by omega
    have htake : (sizes N K).take f = sizes N K :=
      List.take_of_length_le (by rw [hlen]; omega)
    rw [if_neg h, htake, sizes_sum N K hK]

theorem c_sizes_mono (N K : ℕ) (hK : 1 ≤ K) (hlast : (K - 1) * (N / 10) ≤ N) :
    ∀ a b, a ≤ b → b ≤ K → (c_sizes N K).getD a 0 ≤ (c_sizes N K).getD b 0 := by
  intro a b hab hbK
  rw [c_sizes_getD N K hK a (le_trans hab hbK), c_sizes_getD N K hK b hbK]
  by_cases hb : b < K
  · rw [if_pos hb, if_pos (lt_of_le_of_lt hab hb)]
    have : (a : ℤ) ≤ (b : ℤ) := by exact_mod_cast hab
    exact mul_le_mul_of_nonneg_right this (by positivity)
  · rw [if_neg hb]
    by_cases ha : a < K
    · rw [if_pos ha]
      have h1 : a * (N / 10) ≤ (K - 1) * (N / 10) :=
        Nat.mul_le_mul_right _ (by omega)
      have h2 : a * (N / 10) ≤ N := le_trans h1 hlast
      exact_mod_cast h2
    · rw [if_neg ha]

theorem c_sizes_partition (N K : ℕ) (hK : 1 ≤ K) (hlast : (K - 1) * (N / 10) ≤ N) :
    ∀ i : ℕ, i < N → ∃! f : ℕ, f < K ∧
      (c_sizes N K).getD f 0 ≤ (i : ℤ) ∧ (i : ℤ) < (c_sizes N K).getD (f + 1) 0 := by
  intro i hi
  have hg := c_sizes_getD N K hK
  have huniq : ∀ f₁ f₂ : ℕ,
      (f₁ < K ∧ (c_sizes N K).getD f₁ 0 ≤ (i : ℤ) ∧
        (i : ℤ) < (c_sizes N K).getD (f₁ + 1) 0) →
      (f₂ < K ∧ (c_sizes N K).getD f₂ 0 ≤ (i : ℤ) ∧
        (i : ℤ) < (c_sizes N K).getD (f₂ + 1) 0) → f₁ ≤ f₂ := by
    intro f₁ f₂ h₁ h₂
    by_contra hlt
    have hord : f₂ + 1 ≤ f₁ := by omega
    have := c_sizes_mono N K hK hlast (f₂ + 1) f₁ hord (by omega)
    omega
  have hmem : ∀ f : ℕ, (f < K ∧ (c_sizes N K).getD f 0 ≤ (i : ℤ) ∧
      (i : ℤ) < (c_sizes N K).getD (f + 1) 0) →
      ∀ f', (f' < K ∧ (c_sizes N K).getD f' 0 ≤ (i : ℤ) ∧
        (i : ℤ) < (c_sizes N K).getD (f' + 1) 0) → f' = f := by
    intro f hf f' hf'
    have h1 := huniq f' f hf' hf
    have h2 := huniq f f' hf hf'
    omega
  by_cases hcase : i < (K - 1) * (N / 10)
  · have hq : 0 < N / 10 := by
      rcases Nat.eq_zero_or_pos (N / 10) with h0 | h0
      · rw [h0, Nat.mul_zero] at hcase
        omega
      · exact h0
    have hdiv : i / (N / 10) < K - 1 := (Nat.div_lt_iff_lt_mul hq).mpr hcase
    have hmul : i < (i / (N / 10) + 1) * (N / 10) := by
      calc i < (N / 10) * (i / (N / 10) + 1) := Nat.lt_mul_div_succ i hq
        _ = (i / (N / 10) + 1) * (N / 10) := Nat.mul_comm _ _
    have hprop : (i / (N / 10)) < K ∧
        (c_sizes N K).getD (i / (N / 10)) 0 ≤ (i : ℤ) ∧
        (i : ℤ) < (c_sizes N K).getD (i / (N / 10) + 1) 0 := by
      refine ⟨by omega, ?_, ?_⟩
      · rw [hg _ (by omega), if_pos (by omega)]
        exact_mod_cast Nat.div_mul_le_self i (N / 10)
      · rw [hg _ (by omega), if_pos (by omega)]
        exact_mod_cast hmul
    exact ⟨i / (N / 10), hprop, hmem _ hprop⟩
  · have hprop : (K - 1) < K ∧ (c_sizes N K).getD (K - 1) 0 ≤ (i : ℤ) ∧
        (i : ℤ) < (c_sizes N K).getD (K - 1 + 1) 0 := by
      refine ⟨by omega, ?_, ?_⟩
      · rw [hg _ (by omega), if_pos (by omega)]
        exact_mod_cast Nat.le_of_not_lt hcase
      · have hK1 : K - 1 + 1 = K := by omega
        rw [hg _ (by omega), hK1, if_neg (by omega)]
        exact_mod_cast hi
    exact ⟨K - 1, hprop, hmem _ hprop⟩

/-! ## C2 and C10: the fold partition -/

/-- C2 counterexample: the claim demands that every fold except the last
have size `⌊N/K⌋`; at `N = 4, K = 2` it would be `⌊4/2⌋ = 2` (remainder 0),
but the code's first fold has size `⌊4/10⌋ = 0`. -/
theorem claim2_counterexample :
    ¬ ∀ f, f < 2 - 1 → (sizes 4 2).getD f 0 = ((4 / 2 : ℕ) : ℤ) := by decide

/-- C2 amended: for `K ≥ 1` the fold sizes are `K-1` copies of `⌊N/10⌋`
(the divisor is the hard-coded 10, not `K`) with the last fold absorbing
`N - (K-1)·⌊N/10⌋`; the sizes sum to `N`, and — provided the last fold is
not driven negative, i.e. `(K-1)·⌊N/10⌋ ≤ N` — the `c_sizes` ranges are
contiguous, non-overlapping and collectively exhaustive: every index
`i ∈ [0, N)` lies in exactly one fold range `[c_sizes[f], c_sizes[f+1])`. -/
theorem claim2_amended_fold_partition (N K : ℕ) (hK : 1 ≤ K)
    (hlast : (K - 1) * (N / 10) ≤ N) :
    sizes N K = List.replicate (K - 1) ((N / 10 : ℕ) : ℤ) ++
        [((N / 10 : ℕ) : ℤ) + (N : ℤ) - (K : ℤ) * ((N / 10 : ℕ) : ℤ)] ∧
    (sizes N K).sum = (N : ℤ) ∧
    ∀ i : ℕ, i < N → ∃! f : ℕ, f < K ∧
      (c_sizes N K).getD f 0 ≤ (i : ℤ) ∧ (i : ℤ) < (c_sizes N K).getD (f + 1) 0 :=
  ⟨rfl, sizes_sum N K hK, c_sizes_partition N K hK hlast⟩

/-- Witness for C2 (amended) at `N = 20, K = 2`. -/
theorem claim2_witness :
    sizes 20 2 = List.replicate (2 - 1) ((20 / 10 : ℕ) : ℤ) ++
        [((20 / 10 : ℕ) : ℤ) + (20 : ℤ) - (2 : ℤ) * ((20 / 10 : ℕ) : ℤ)] ∧
    (sizes 20 2).sum = (20 : ℤ) ∧
    ∀ i : ℕ, i < 20 → ∃! f : ℕ, f < 2 ∧
      (c_sizes 20 2).getD f 0 ≤ (i : ℤ) ∧ (i : ℤ) < (c_sizes 20 2).getD (f + 1) 0 :=
  claim2_amended_fold_partition 20 2 (by decide) (by decide)

/-- C10 counterexample: at `N = 1, K = 1` the code's partition `[1]` equals
the `⌊N/K⌋`-balanced partition even though `K ≠ 10` and
`⌊N/10⌋ = 0 ≠ 1 = ⌊N/K⌋`, so "matches … only when K = 10 (or when
⌊N/10⌋ = ⌊N/K⌋)" fails. -/
theorem claim10_counterexample :
    sizes 1 1 = ruleSizes 1 1 ∧ (1 : ℕ) / 10 ≠ (1 : ℕ) / 1 ∧ (1 : ℕ) ≠ 10 := by
  decide

/-- C10 amended: for `K ≥ 1`, each of the first `K-1` folds has size
`⌊N/10⌋` regardless of `K`, the last fold has size `N - (K-1)·⌊N/10⌋`, and
the partition matches the `⌊N/K⌋` balancing rule exactly when `K = 1` or
`⌊N/10⌋ = ⌊N/K⌋` (in particular when `K = 10`). -/
theorem claim10_amended_divisor_is_ten (N K : ℕ) (hK : 1 ≤ K) :
    (∀ f, f < K - 1 → (sizes N K).getD f 0 = ((N / 10 : ℕ) : ℤ)) ∧
    (sizes N K).getD (K - 1) 0 = (N : ℤ) - ((K : ℤ) - 1) * ((N / 10 : ℕ) : ℤ) ∧
    (sizes N K = ruleSizes N K ↔ K = 1 ∨ N / 10 = N / K) := by
  refine ⟨fun f hf => sizes_getD_front N K f hf, sizes_getD_last N K, ?_, ?_⟩
  · intro heq
    rcases Nat.lt_or_ge K 2 with h2 | h2
    · left
      omega
    · right
      have h0 : (0 : ℕ) < K - 1 := by omega
      have hfront := sizes_getD_front N K 0 h0
      have hfront' : (ruleSizes N K).getD 0 0 = ((N / K : ℕ) : ℤ) := by
        rw [ruleSizes, List.getD_append _ _ _ _ (by simpa using h0),
          List.getD_eq_getElem _ _ (by simpa using h0), List.getElem_replicate]
      rw [heq, hfront'] at hfront
      have : N / K = N / 10 := by exact_mod_cast hfront
      omega
  · intro hor
    rcases hor with h1 | hdiv
    · subst h1
      rw [sizes, ruleSizes]
      simp [Nat.div_one, Nat.mod_one]
    · rw [sizes, ruleSizes, hdiv]
      have hlast : ((N / K : ℕ) : ℤ) + (N : ℤ) - (K : ℤ) * ((N / K : ℕ) : ℤ) =
          ((N / K : ℕ) : ℤ) + ((N % K : ℕ) : ℤ) := by
        have hdm := Nat.div_add_mod N K
        have : (K : ℤ) * ((N / K : ℕ) : ℤ) + ((N % K : ℕ) : ℤ) = (N : ℤ) := by
          exact_mod_cast hdm
        omega
      rw [hlast]

/-- Witness for C10 (amended) at `N = 25, K = 5`. -/
theorem claim10_witness :
    (∀ f, f < 5 - 1 → (sizes 25 5).getD f 0 = ((25 / 10 : ℕ) : ℤ)) ∧
    (sizes 25 5).getD (5 - 1) 0 = (25 : ℤ) - ((5 : ℤ) - 1) * ((25 / 10 : ℕ) : ℤ) ∧
    (sizes 25 5 = ruleSizes 25 5 ↔ 5 = 1 ∨ 25 / 10 = 25 / 5) :=
  claim10_amended_divisor_is_ten 25 5 (by decide)

/-! ## Error propagation through the sweep -/

theorem sweepM_cons_error {α : Type} {f : ℕ → Except Err α} {i : ℕ} {is : List ℕ}
    {e : Err} (h : f i = .error e) : sweepM f (i :: is) = .error e := by
  rw [sweepM, h]
  rfl

theorem evaluate_first_cell_error (x t xt tt : List ℚ) (mo K : ℕ) (hK : K ≠ 0)
    (e : Err) (hc : cellAt x t xt tt K 0 0 = .error e) :
    evaluate x t xt tt mo K = .error e := by
  rw [evaluate, if_neg hK]
  have hinner : sweepM (fun fold => cellAt x t xt tt K 0 fold) (List.range K) =
      .error e := by
    obtain ⟨K', rfl⟩ : ∃ K', K = K' + 1 := ⟨K - 1, by omega⟩
    rw [List.range_succ_eq_map]
    exact sweepM_cons_error hc
  have houter : sweepM (fun k =>
      sweepM (fun fold => cellAt x t xt tt K k fold) (List.range K))
      (List.range (mo + 1)) = .error e := by
    rw [List.range_succ_eq_map]
    exact sweepM_cons_error hinner
  rw [houter]

theorem bind_error_inv {ε α β : Type} {x : Except ε α} {f : α → Except ε β} {er : ε}
    (h : (x >>= f) = .error er) : x = .error er ∨ ∃ v, x = .ok v ∧ f v = .error er := by
  cases x with
  | error e2 =>
      left
      have he : e2 = er := by simpa [Bind.bind, Except.bind] using h
      rw [he]
  | ok v =>
      right
      exact ⟨v, rfl, by simpa [Bind.bind, Except.bind] using h⟩

theorem bmse_error_is_broadcast {a b : List ℚ} {e : Err} (h : bmse a b = .error e) :
    e = .broadcastMismatch := by
  rw [bmse] at h
  match hd : bsub a b, h with
  | none, h =>
      have h2 := h
      simp only [Except.error.injEq] at h2
      exact h2.symm
  | some d, h => exact absurd h (by simp)

theorem cell_error_classify {n : ℕ} {X : List (List ℚ)} {t : List ℚ}
    {Xt : List (List ℚ)} {tt : List ℚ} {a b : ℕ} {e : Err}
    (h : cell n X t Xt tt a b = .error e) :
    e = .shapeMismatch ∨ e = .singularMatrix ∨ e = .broadcastMismatch := by
  rw [cell] at h
  split at h
  · left
    have h2 := h
    simp only [Except.error.injEq] at h2
    exact h2.symm
  · split at h
    · right
      left
      have h2 := h
      simp only [Except.error.injEq] at h2
      exact h2.symm
    · rcases bind_error_inv h with hcv | ⟨cv, hcv, h2⟩
      · right; right; exact bmse_error_is_broadcast hcv
      · rcases bind_error_inv h2 with hind | ⟨ind, hind, h3⟩
        · right; right; exact bmse_error_is_broadcast hind
        · rcases bind_error_inv h3 with htr | ⟨tr, htr, h4⟩
          · right; right; exact bmse_error_is_broadcast htr
          · exact absurd h4 (by simp [Pure.pure, Except.pure])

/-! ## C3: `evaluate` with `K = 1` -/

theorem sizes_one (N : ℕ) : sizes N 1 = [(N : ℤ)] := by
  rw [sizes]
  simp

theorem c_sizes_one (N : ℕ) : c_sizes N 1 = [0, (N : ℤ)] := by
  rw [c_sizes, sizes_one]
  simp [List.scanl]

theorem deleteRangeL_all {α : Type} (n : ℕ) (l : List α) (hn : l.length = n)
    (h0 : 0 < n) : deleteRangeL 0 n l = [] := by
  rw [deleteRangeL, if_neg (by omega)]
  simp [List.drop_eq_nil_of_le (by omega : l.length ≤ n)]

theorem cell_empty_train_order0 (X : List (List ℚ)) (t : List ℚ)
    (Xt : List (List ℚ)) (tt : List ℚ) (a b : ℕ)
    (hX : deleteRangeL a b X = []) (ht : deleteRangeL a b t = []) :
    cell 1 X t Xt tt a b = .error .singularMatrix := by
  rw [cell, hX, ht]
  rw [if_neg (by simp)]
  have hsolve : linSolve (gramL 1 ([] : List (List ℚ))) (rhsL 1 [] []) = none := by
    with_unfolding_all decide
  rw [hsolve]

/-- C3 counterexample: `evaluate` with `K = 1` does crash — the single fold
holds out the whole dataset, the training complement is empty, and the
normal-equations matrix is the singular zero matrix, so the call aborts
with the singular-matrix error instead of returning equal CV and training
losses. -/
theorem claim3_counterexample :
    evaluate [1, 2] [1, 2] [0] [0] 0 1 = .error .singularMatrix := by
  with_unfolding_all decide

/-- C3 amended: for every nonempty paired dataset, `evaluate` with `K = 1`
fails with the singular-matrix error at the very first cell: the sole fold
is the whole index range, so the training complement is empty and the
normal-equations matrix is the zero matrix. -/
theorem claim3_amended_single_fold_crashes (x t xt tt : List ℚ) (mo : ℕ)
    (hx : x ≠ []) (ht : t.length = x.length) :
    evaluate x t xt tt mo 1 = .error .singularMatrix := by
  apply evaluate_first_cell_error x t xt tt mo 1 one_ne_zero
  rw [cellAt]
  have hstart : foldStart x 1 0 = 0 := by
    rw [foldStart, c_sizes_one]
    simp
  have hstop : foldStop x 1 0 = x.length := by
    rw [foldStop, c_sizes_one]
    simp
  rw [hstart, hstop]
  have hpos : 0 < x.length := List.length_pos.mpr hx
  exact cell_empty_train_order0 _ _ _ _ _ _
    (deleteRangeL_all x.length (buildX x 0) (buildX_length x 0) hpos)
    (deleteRangeL_all x.length t ht hpos)

/-- Witness for C3 (amended) at `x = t = [1]`. -/
theorem claim3_witness : evaluate [1] [1] [0] [0] 0 1 = .error .singularMatrix :=
  claim3_amended_single_fold_crashes [1] [1] [0] [0] 0 (by decide) (by decide)

/-! ## C4: a singular cell aborts the whole sweep -/

set_option maxRecDepth 8000 in
/-- C4 counterexample: at `x = t = [1,2]`, `K = 2`, `max_order = 0`, the
fold-1 cell has an empty training complement, its normal-equations matrix
is singular, and the whole `evaluate` call aborts with the error — no
per-cell sentinel is recorded and no results for the other cells are
returned. -/
theorem claim4_counterexample :
    evaluate [1, 2] [1, 2] [0] [0] 0 2 = .error .singularMatrix := by
  with_unfolding_all decide

/-- C4 amended: the notebook has no per-cell recovery: `evaluate` returns a
loss table only when the normal-equations solve succeeded in every single
`(order, fold)` cell; any singular cell makes the whole call abort with the
error (contrapositive of this theorem), discarding all results. -/
theorem claim4_amended_no_per_cell_recovery (x t xt tt : List ℚ) (mo K : ℕ)
    (T : List (List ℚ) × List (List ℚ) × List (List ℚ))
    (h : evaluate x t xt tt mo K = .ok T) (k f : ℕ) (hk : k ≤ mo) (hf : f < K) :
    ∃ y, cellAt x t xt tt K k f = .ok y := by
  obtain ⟨cv, ind, tr⟩ := T
  rcases evaluate_ok_cellAt h hk hf with ⟨y, hy, -, -, -⟩
  exact ⟨y, hy⟩

set_option maxRecDepth 8000 in
/-- Witness for C4 (amended) at the successful run
`evaluate [0..9] [0..9] [0] [0] 0 2`, cell `(0, 1)`. -/
theorem claim4_witness :
    ∃ y, cellAt [0, 1, 2, 3, 4, 5, 6, 7, 8, 9] [0, 1, 2, 3, 4, 5, 6, 7, 8, 9]
      [0] [0] 2 0 1 = .ok y :=
  claim4_amended_no_per_cell_recovery
    [0, 1, 2, 3, 4, 5, 6, 7, 8, 9] [0, 1, 2, 3, 4, 5, 6, 7, 8, 9] [0] [0] 0 2
    ([[25], [95 / 3]], [[25], [0]], [[20 / 3], [0]])
    (by with_unfolding_all decide) 0 1 (by decide) (by decide)

/-! ## C7: there is no fold-count validation -/

set_option maxRecDepth 8000 in
/-- C7 counterexample: with `K = 3 > 2 = N` the call is not rejected with
`InvalidFoldCount`; the sweep runs and aborts with a singular-matrix error
at the last fold, whose training complement is empty. -/
theorem claim7_counterexample :
    evaluate [1, 2] [1, 2] [0] [0] 0 3 = .error .singularMatrix := by
  with_unfolding_all decide

/-- C7 amended: the notebook performs no fold-count validation at all:
every error `evaluate` can produce is the `K = 0` indexing error, a shape
error, a singular-matrix error, or a broadcasting error — never
`InvalidFoldCount`, for any `K` outside `[1, N]` or otherwise. -/
theorem claim7_amended_never_invalid_fold_count (x t xt tt : List ℚ) (mo K : ℕ)
    (e : Err) (h : evaluate x t xt tt mo K = .error e) :
    e = .indexError ∨ e = .shapeMismatch ∨ e = .singularMatrix ∨
      e = .broadcastMismatch := by
  rw [evaluate] at h
  split at h
  · left
    have h2 := h
    simp only [Except.error.injEq] at h2
    exact h2.symm
  · match hs : sweepM (fun k =>
        sweepM (fun fold => cellAt x t xt tt K k fold) (List.range K))
        (List.range (mo + 1)), h with
    | .ok kls, h => exact absurd h (by simp)
    | .error e2, h =>
        have he2 : e2 = e := by simpa using h
        subst he2
        rcases sweepM_error_mem hs with ⟨k, -, hk⟩
        rcases sweepM_error_mem hk with ⟨f, -, hf⟩
        rw [cellAt] at hf
        exact Or.inr (cell_error_classify hf)

/-- Witness for C7 (amended) at `K = 0` (the `sizes[0,-1]` IndexError). -/
theorem claim7_witness :
    Err.indexError = .indexError ∨ Err.indexError = .shapeMismatch ∨
      Err.indexError = .singularMatrix ∨ Err.indexError = .broadcastMismatch :=
  claim7_amended_never_invalid_fold_count [1] [1] [1] [1] 0 0 .indexError
    (by with_unfolding_all decide)

/-! ## C8: shape mismatches -/

theorem deleteRange_zero_length {α : Type} (q : ℕ) (l : List α) :
    (deleteRangeL 0 q l).length = l.length - q := by
  rw [deleteRangeL]
  split
  · rename_i h
    omega
  · simp

theorem foldStart_zero (x : List ℚ) (K : ℕ) (hK : 1 ≤ K) : foldStart x K 0 = 0 := by
  rw [foldStart, c_sizes_getD x.length K hK 0 (by omega), if_pos (by omega)]
  simp

theorem foldStop_zero (x : List ℚ) (K : ℕ) (h2 : 2 ≤ K) :
    foldStop x K 0 = x.length / 10 := by
  rw [foldStop, c_sizes_getD x.length K (by omega) 1 (by omega), if_pos (by omega)]
  simp only [Nat.cast_one, one_mul, Int.toNat_natCast]

theorem cell_shape_error {n : ℕ} {X : List (List ℚ)} {t : List ℚ}
    {Xt : List (List ℚ)} {tt : List ℚ} {a b : ℕ}
    (h : (deleteRangeL a b X).length ≠ (deleteRangeL a b t).length) :
    cell n X t Xt tt a b = .error .shapeMismatch := by
  rw [cell, if_pos h]

set_option maxRecDepth 8000 in
/-- C8 counterexample: with `len(x_test) = 2 ≠ 1 = len(t_test)` the call
does NOT fail: numpy broadcasting silently subtracts the length-1 `t_test`
from the length-2 independent predictions and `evaluate` returns a full
loss table. -/
theorem claim8_counterexample :
    evaluate [0, 1, 2, 3, 4, 5, 6, 7, 8, 9] [0, 1, 2, 3, 4, 5, 6, 7, 8, 9] [0, 1] [5] 0 2
      = .ok ([[25], [95 / 3]], [[0], [25]], [[20 / 3], [0]]) := by
  with_unfolding_all decide

/-- C8 amended: with `K ≥ 2`, unequal `x_train`/`t_train` lengths abort the
entire call with the shape error of the first cell's normal-equations
product (`np.dot(X_train.T, t_train)`); unequal test-pair lengths are not
validated — they error at the first independent-loss subtraction only when
neither length is 1, and are silently broadcast otherwise. -/
theorem claim8_amended_train_length_mismatch_aborts (x t xt tt : List ℚ) (mo K : ℕ)
    (hK : 2 ≤ K) (hne : x.length ≠ t.length) :
    evaluate x t xt tt mo K = .error .shapeMismatch := by
  apply evaluate_first_cell_error x t xt tt mo K (by omega)
  rw [cellAt, foldStart_zero x K (by omega), foldStop_zero x K hK]
  apply cell_shape_error
  rw [deleteRange_zero_length, deleteRange_zero_length, buildX_length]
  rcases Nat.eq_zero_or_pos x.length with h0 | h0
  · have hq0 : x.length / 10 = 0 := by rw [h0]
    omega
  · have hqlt : x.length / 10 < x.length := Nat.div_lt_self h0 (by norm_num)
    omega

/-- Witness for C8 (amended): `evaluate [1,2] [1] [0] [0] 0 2` aborts with
the shape error. -/
theorem claim8_witness : evaluate [1, 2] [1] [0] [0] 0 2 = .error .shapeMismatch :=
  claim8_amended_train_length_mismatch_aborts [1, 2] [1] [0] [0] 0 2
    (by decide) (by decide)

/-! ## C6: training loss is non-increasing in the polynomial order -/

theorem deleteRange_buildX (x : List ℚ) (k a b : ℕ) :
    deleteRangeL a b (buildX x k) = vanderL (deleteRangeL a b x) k := by
  rw [buildX_eq_vanderL, vanderL, deleteRangeL_map]
  rfl

theorem matVecL_getD_of (n m : ℕ) (A : List (List ℚ)) (w : List ℚ) (hm : m = A.length)
    (hrow : ∀ r ∈ A, r.length = n) (hw : w.length = n) (i : Fin m) :
    (matVecL A w).getD i.val 0 = ((toMat m n A) *ᵥ vecOf n w) i := by
  subst hm
  exact matVecL_getD n A w hrow hw i

theorem toMat_vanderL_of (m : ℕ) (xs : List ℚ) (k : ℕ) (hm : m = xs.length) :
    toMat m (k + 1) (vanderL xs k) = vmat m (k + 1) xs := by
  subst hm
  exact toMat_vanderL xs k

theorem mse_matVecL_vander (xs ts w : List ℚ) (k : ℕ) (hts : ts.length = xs.length)
    (hw : w.length = k + 1) :
    mseSpec (matVecL (vanderL xs k) w) ts =
      (∑ i : Fin xs.length,
        ((vmat xs.length (k + 1) xs *ᵥ vecOf (k + 1) w - vecOf xs.length ts) i) ^ 2) /
        (xs.length : ℚ) := by
  rw [mseSpec, matVecL_length, vanderL_length]
  congr 1
  rw [sum_map_sq_fin xs.length _ _ (by rw [matVecL_length, vanderL_length]) hts]
  refine Finset.sum_congr rfl fun i _ => ?_
  rw [matVecL_getD_of (k + 1) xs.length (vanderL xs k) w (vanderL_length xs k).symm
    (vanderL_rows_length xs k) hw i, toMat_vanderL_of xs.length xs k rfl]
  rw [Pi.sub_apply]
  rfl

theorem vander_solve_ne (xs ts w : List ℚ) (k : ℕ) (hts : ts.length = xs.length)
    (hsolve : linSolve (gramL (k + 1) (vanderL xs k))
      (rhsL (k + 1) (vanderL xs k) ts) = some w) :
    ((vmat xs.length (k + 1) xs)ᵀ * vmat xs.length (k + 1) xs) *ᵥ vecOf (k + 1) w =
      (vmat xs.length (k + 1) xs)ᵀ *ᵥ vecOf xs.length ts := by
  have hs := linSolve_sound (k + 1) _ _ w (gramL_length _ _) (gramL_rows_length _ _)
    (rhsL_length _ _ _) hsolve
  rw [toMat_gramL_of (k + 1) xs.length _ (vanderL_length xs k).symm,
    vecOf_rhsL_of (k + 1) xs.length _ _ (vanderL_length xs k).symm
      (hts.trans (vanderL_length xs k).symm),
    toMat_vanderL_of xs.length xs k rfl] at hs
  exact hs

/-- C6: for noiseless data generated exactly by a polynomial of degree at
most `max_order`, within any successful `evaluate` run the recorded
training loss of a fixed fold is non-increasing as the polynomial order
grows: the order-`k+1` least-squares fit is at least as good on the
training complement as the order-`k` fit. -/
theorem claim6_training_loss_monotone
    (x t xt tt : List ℚ) (mo K : ℕ) (cv ind tr : List (List ℚ))
    (hxt : x.length = t.length)
    (_hpoly : ∃ c : List ℚ, c.length ≤ mo + 1 ∧ t = x.map (polyEval c))
    (h : evaluate x t xt tt mo K = .ok (cv, ind, tr))
    (k f : ℕ) (hk1 : k + 1 ≤ mo) (hf : f < K) :
    (tr.getD f []).getD (k + 1) 0 ≤ (tr.getD f []).getD k 0 := by
  rcases evaluate_ok_cellAt h (le_trans (Nat.le_succ k) hk1) hf with ⟨y₁, hc₁, -, -, e₁⟩
  rcases evaluate_ok_cellAt h hk1 hf with ⟨y₂, hc₂, -, -, e₂⟩
  rw [cellAt] at hc₁ hc₂
  rcases cell_ok_inv hc₁ with ⟨hlen₁, w₁, hs₁, -, -, ht₁⟩
  rcases cell_ok_inv hc₂ with ⟨hlen₂, w₂, hs₂, -, -, ht₂⟩
  rw [deleteRange_buildX] at hs₁ ht₁ hs₂ ht₂
  set xs := deleteRangeL (foldStart x K f) (foldStop x K f) x with hxs
  set ts := deleteRangeL (foldStart x K f) (foldStop x K f) t with htsdef
  have hts : ts.length = xs.length := by
    rw [htsdef, hxs, deleteRangeL_length, deleteRangeL_length, hxt]
  have hw₁ : w₁.length = k + 1 := by
    have := linSolve_length hs₁
    rwa [gramL_length] at this
  have hw₂ : w₂.length = k + 1 + 1 := by
    have := linSolve_length hs₂
    rwa [gramL_length] at this
  have hv₁ : y₁.2.2 = (∑ i : Fin xs.length,
      ((vmat xs.length (k + 1) xs *ᵥ vecOf (k + 1) w₁ - vecOf xs.length ts) i) ^ 2) /
      (xs.length : ℚ) := by
    have hval := bmse_ok_value (by rw [matVecL_length, vanderL_length, hts]) ht₁
    rw [hval, mse_matVecL_vander xs ts w₁ k hts hw₁]
  have hv₂ : y₂.2.2 = (∑ i : Fin xs.length,
      ((vmat xs.length (k + 1 + 1) xs *ᵥ vecOf (k + 1 + 1) w₂ -
        vecOf xs.length ts) i) ^ 2) / (xs.length : ℚ) := by
    have hval := bmse_ok_value (by rw [matVecL_length, vanderL_length, hts]) ht₂
    rw [hval, mse_matVecL_vander xs ts w₂ (k + 1) hts hw₂]
  rw [e₁, e₂, hv₁, hv₂]
  rcases Nat.eq_zero_or_pos xs.length with hm | hm
  · have hq0 : ((xs.length : ℕ) : ℚ) = 0 := by rw [hm]; simp
    rw [hq0, div_zero, div_zero]
  · have hS : (∑ i : Fin xs.length,
        ((vmat xs.length (k + 1 + 1) xs *ᵥ vecOf (k + 1 + 1) w₂ -
          vecOf xs.length ts) i) ^ 2) ≤
        ∑ i : Fin xs.length,
          ((vmat xs.length (k + 1) xs *ᵥ vecOf (k + 1) w₁ - vecOf xs.length ts) i) ^ 2 := by
      have hne₂ := vander_solve_ne xs ts w₂ (k + 1) hts hs₂
      have hols := ols_optimal (vmat xs.length (k + 1 + 1) xs) (vecOf xs.length ts)
        (vecOf (k + 1 + 1) w₂) (Fin.snoc (vecOf (k + 1) w₁) 0) hne₂
      rw [vmat_mulVec_snoc] at hols
      exact hols
    have hden : (0 : ℚ) < (xs.length : ℚ) := by exact_mod_cast hm
    exact (div_le_div_iff_of_pos_right hden).mpr hS

set_option maxRecDepth 8000 in
/-- Witness for C6: the noiseless linear dataset `t = x` on `x = [0..9]`
with `max_order = 1`, `K = 3`, fold 0: the order-1 training loss (0) is at
most the order-0 training loss (20/3). -/
theorem claim6_witness :
    (([[20 / 3, 0], [620 / 81, 0], [1 / 4, 0]] : List (List ℚ)).getD 0 []).getD (0 + 1) 0 ≤
      (([[20 / 3, 0], [620 / 81, 0], [1 / 4, 0]] : List (List ℚ)).getD 0 []).getD 0 0 :=
  claim6_training_loss_monotone
    [0, 1, 2, 3, 4, 5, 6, 7, 8, 9] [0, 1, 2, 3, 4, 5, 6, 7, 8, 9] [0] [0] 1 3
    [[25, 0], [1225 / 81, 0], [121 / 4, 0]]
    [[25, 0], [1936 / 81, 0], [1 / 4, 0]]
    [[20 / 3, 0], [620 / 81, 0], [1 / 4, 0]]
    (by decide) ⟨[0, 1], by decide, by with_unfolding_all decide⟩
    (by with_unfolding_all decide) 0 0 (by decide) (by decide)
